import Mathlib

/-!
# Verification of the `cocktails` branch-and-bound engine

Shallow embedding of the repository:
* `src/bitset.rs` — a growable bitset over 64-bit chunks (`SmallVec<[u64; 3]>`
  is modelled as `List Nat` with every chunk `< 2 ^ 64`);
* `src/lib.rs` — the `BranchBound` search engine and its three bound
  functions;
* `src/bounds.rs` — the trait-based variants of the bound functions.

Machine integers are modelled as `Nat`/`Int`.  `u64` chunk complement
(`!other_chunk`) is modelled as `xor` with the all-ones 64-bit mask.  The
`f64` amortized costs are modelled as exact fractions (`Frac`), compared by
cross-multiplication; on every concrete instance evaluated below the `f64`
sums of the source are exact dyadic rationals, so the comparison results
coincide.  Hash sets of recipes are modelled as duplicate-free lists; where a
result depends on the (unspecified) hash iteration order the list order plays
that role.
-/

/-! ## The bitset (src/bitset.rs) -/

/-- The all-ones 64-bit word; `!x` on a `u64` is `x ^^^ mask64`. -/
def mask64 : Nat := 2 ^ 64 - 1

/-- Models `chunks.get(i).copied().unwrap_or(0)`. -/
def padGet (l : List Nat) (i : Nat) : Nat := l.getD i 0

/-- Models the `while result_chunks.last() == Some(&0) { result_chunks.pop(); }`
trimming loop: remove all trailing zero chunks. -/
def dropTrailingZeros : List Nat → List Nat :=
  List.foldr (fun x acc => if x = 0 ∧ acc = [] then [] else x :: acc) []

/-- `BitSet` of src/bitset.rs: a vector of 64-bit chunks. -/
structure BitSet where
  chunks : List Nat
deriving DecidableEq

/-- `BitSet::new`. -/
def BitSet.new : BitSet := ⟨[]⟩

/-- `BitSet::contains`: bit `element % 64` of chunk `element / 64`
(missing chunks read as 0, which yields `false`, as in the source's
early return). -/
def BitSet.contains (a : BitSet) (e : Nat) : Bool :=
  padGet a.chunks (e / 64) &&& (1 <<< (e % 64)) != 0

/-- `BitSet::insert`: `ensure_capacity` (resize with zero fill to
`chunk_index + 1`) followed by `chunks[ci] |= 1 << bi`. -/
def BitSet.insert (a : BitSet) (e : Nat) : BitSet :=
  let ci := e / 64
  let bi := e % 64
  let l := if ci < a.chunks.length then a.chunks
           else a.chunks ++ List.replicate (ci + 1 - a.chunks.length) 0
  ⟨l.set ci (padGet l ci ||| (1 <<< bi))⟩

/-- `BitSet::singleton`. -/
def BitSet.singleton (e : Nat) : BitSet := BitSet.new.insert e

/-- `BitSet::bitset_from_iter` (the iterator is modelled as a list). -/
def BitSet.bitsetFromIter (l : List Nat) : BitSet := l.foldl BitSet.insert BitSet.new

/-- `u64::count_ones`: the number of set bits among bits `0..64`. -/
def countOnes (n : Nat) : Nat := ((List.range 64).filter fun i => n.testBit i).length

/-- `BitSet::len`: sum of the chunk popcounts. -/
def BitSet.len (a : BitSet) : Nat := (a.chunks.map countOnes).sum

/-- `BitSet::union`: chunkwise `or` over `0..max_len` with zero padding,
then trailing-zero trimming. -/
def BitSet.union (a b : BitSet) : BitSet :=
  ⟨dropTrailingZeros ((List.range (max a.chunks.length b.chunks.length)).map
      fun i => padGet a.chunks i ||| padGet b.chunks i)⟩

/-- `BitSet::intersection`: chunkwise `and` over `0..min_len`, then trimming. -/
def BitSet.intersection (a b : BitSet) : BitSet :=
  ⟨dropTrailingZeros ((List.range (min a.chunks.length b.chunks.length)).map
      fun i => padGet a.chunks i &&& padGet b.chunks i)⟩

/-- `BitSet::difference` (`self − other`): `self.chunks[i] & !other_chunk`
over `0..self.len`, missing `other` chunks read as 0, then trimming. -/
def BitSet.difference (a b : BitSet) : BitSet :=
  ⟨dropTrailingZeros ((List.range a.chunks.length).map
      fun i => padGet a.chunks i &&& (padGet b.chunks i ^^^ mask64))⟩

/-- `BitSet::is_subset`: the source checks that the extra chunks of `self`
are zero and that `self.chunks[i] & !other.chunks[i] == 0` on the overlap;
with zero padding both checks are the single condition below. -/
def BitSet.isSubset (a b : BitSet) : Bool :=
  (List.range a.chunks.length).all fun i =>
    padGet a.chunks i &&& (padGet b.chunks i ^^^ mask64) == 0

/-- `BitSet::union_assign`: resize `self` up to `other`'s length, `or` in
`other`'s chunks in place, trim. -/
def BitSet.unionAssign (a b : BitSet) : BitSet :=
  let l := if b.chunks.length > a.chunks.length
           then a.chunks ++ List.replicate (b.chunks.length - a.chunks.length) 0
           else a.chunks
  ⟨dropTrailingZeros (l.mapIdx fun i x => x ||| padGet b.chunks i)⟩

/-- `BitSet::intersection_assign`: `and` on the overlap, truncate to
`min_len`, trim. -/
def BitSet.intersectionAssign (a b : BitSet) : BitSet :=
  ⟨dropTrailingZeros ((a.chunks.take (min a.chunks.length b.chunks.length)).mapIdx
      fun i x => x &&& padGet b.chunks i)⟩

/-- `BitSet::difference_assign`: `self.chunks[i] &= !other.chunks[i]` on the
overlap only (chunks of `self` beyond `other` are unchanged), trim. -/
def BitSet.differenceAssign (a b : BitSet) : BitSet :=
  ⟨dropTrailingZeros (a.chunks.mapIdx fun i x =>
      if i < b.chunks.length then x &&& (padGet b.chunks i ^^^ mask64) else x)⟩

/-- The tail of the comparison loop of `impl Ord for BitSet` once `self` has
run out of chunks: each remaining position compares `0` with a chunk of
`other`. -/
def cmpZerosLeft : List Nat → Ordering
  | [] => Ordering.eq
  | y :: ys =>
    match compare 0 y with
    | Ordering.eq => cmpZerosLeft ys
    | o => o

/-- The chunk comparison loop of `impl Ord for BitSet` (bitset.rs lines
400–414): positions `0..max_len` are compared in increasing chunk order,
missing chunks read as 0. -/
def cmpChunks : List Nat → List Nat → Ordering
  | [], ys => cmpZerosLeft ys
  | x :: xs, [] =>
    match compare x 0 with
    | Ordering.eq => cmpChunks xs []
    | o => o
  | x :: xs, y :: ys =>
    match compare x y with
    | Ordering.eq => cmpChunks xs ys
    | o => o

/-- `Ord::cmp` for `BitSet`. -/
def BitSet.cmp (a b : BitSet) : Ordering := cmpChunks a.chunks b.chunks

/-- The packed numeric value of a chunk vector: chunk `i` weighs `2 ^ (64 i)`,
so element `e` contributes `2 ^ e`. -/
def chunksValue : List Nat → Nat
  | [] => 0
  | c :: rest => c + 2 ^ 64 * chunksValue rest

/-- The packed numeric value of a bitset. -/
def BitSet.value (a : BitSet) : Nat := chunksValue a.chunks

/-- The element list produced by `BitSet::iter`: ascending bit positions of
ascending chunks, i.e. all set positions in ascending order. -/
def BitSet.elements (a : BitSet) : List Nat :=
  (List.range (64 * a.chunks.length)).filter fun e => a.contains e

/-- The chunk values a real `u64` vector can hold. -/
def BitSet.Bounded (a : BitSet) : Prop := ∀ c ∈ a.chunks, c < 2 ^ 64

/-- No trailing zero chunk (the representation invariant the trimming loops
maintain). -/
def BitSet.Trimmed (a : BitSet) : Prop := a.chunks.getLast? ≠ some 0

/-- The full representation invariant. -/
def BitSet.Wf (a : BitSet) : Prop := a.Bounded ∧ a.Trimmed

instance : DecidablePred BitSet.Bounded := fun a =>
  decidable_of_iff (∀ c ∈ a.chunks, c < 2 ^ 64) Iff.rfl

instance : DecidablePred BitSet.Trimmed := fun a =>
  decidable_of_iff (a.chunks.getLast? ≠ some 0) Iff.rfl

instance : DecidablePred BitSet.Wf := fun a =>
  decidable_of_iff (a.Bounded ∧ a.Trimmed) Iff.rfl

/-- The bitsets constructible by any sequence of the public constructors and
operations of src/bitset.rs. -/
inductive BitSet.Reachable : BitSet → Prop
  | new : BitSet.Reachable BitSet.new
  | singleton (e : Nat) : BitSet.Reachable (BitSet.singleton e)
  | fromIter (l : List Nat) : BitSet.Reachable (BitSet.bitsetFromIter l)
  | insert (a : BitSet) (e : Nat) :
      BitSet.Reachable a → BitSet.Reachable (a.insert e)
  | union (a b : BitSet) :
      BitSet.Reachable a → BitSet.Reachable b → BitSet.Reachable (a.union b)
  | intersection (a b : BitSet) :
      BitSet.Reachable a → BitSet.Reachable b → BitSet.Reachable (a.intersection b)
  | difference (a b : BitSet) :
      BitSet.Reachable a → BitSet.Reachable b → BitSet.Reachable (a.difference b)
  | unionAssign (a b : BitSet) :
      BitSet.Reachable a → BitSet.Reachable b → BitSet.Reachable (a.unionAssign b)
  | intersectionAssign (a b : BitSet) :
      BitSet.Reachable a → BitSet.Reachable b → BitSet.Reachable (a.intersectionAssign b)
  | differenceAssign (a b : BitSet) :
      BitSet.Reachable a → BitSet.Reachable b → BitSet.Reachable (a.differenceAssign b)

/-! ## The branch-and-bound engine (src/lib.rs and src/bounds.rs) -/

/-- The footprint folds `partial_ingredients = partial_ingredients | cocktail`
(lib.rs lines 127–130) and `candidate_ingredients` (lines 262–265). -/
def unionAll (l : List BitSet) : BitSet := l.foldl (fun acc c => acc.union c) BitSet.new

/-- Exact value of an `f64` amortized cost, kept as a fraction `num / den`
with positive denominator.  On every concrete instance evaluated in this file
the source's `f64` sums are exact dyadic rationals, so the comparisons agree
with the exact ones. -/
structure Frac where
  num : Nat
  den : Nat
deriving DecidableEq

/-- `cmp_f64` (lib.rs lines 36–43) on exact fractions, by cross-multiplication:
`a < b ↦ Less`, `a > b ↦ Greater`, otherwise `Equal`. -/
def cmpF64 (a b : Frac) : Ordering :=
  if a.num * b.den < b.num * a.den then Ordering.lt
  else if b.num * a.den < a.num * b.den then Ordering.gt
  else Ordering.eq

/-- The `cardinality` map of the first-call preprocessing (lib.rs lines
73–78): how many candidate cocktails contain ingredient `i`. -/
def cardinality (cands : List BitSet) (i : Nat) : Nat :=
  (cands.filter fun c => c.contains i).length

/-- A `min_amortized_cost` entry (lib.rs lines 90–99):
`Σ_{i ∈ cocktail} 1 / cardinality i`, accumulated exactly:
`n/d + 1/k = (n·k + d) / (d·k)`. -/
def amortizedCost (cands : List BitSet) (c : BitSet) : Frac :=
  c.elements.foldl
    (fun acc i => ⟨acc.num * cardinality cands i + acc.den, acc.den * cardinality cands i⟩)
    ⟨0, 1⟩

/-- A `min_cover` entry (lib.rs lines 100–107): the smallest `cardinality`
over the cocktail's ingredients.  The source unwraps `Iterator::min`, which
panics on an empty cocktail; the `[]` branch is the junk value of that dead
path (the claims assume non-empty recipes). -/
def minCoverOf (cands : List BitSet) (c : BitSet) : Int :=
  match c.elements.map fun i => (cardinality cands i : Int) with
  | [] => 0
  | x :: xs => xs.foldl min x

/-- `FxHashMap::get(..).unwrap()` on an association list built at
preprocessing time; the default models the panic of a failed unwrap
(shown unreachable for the pools of the search, claim C10). -/
def lookupD {α : Type} (m : List (BitSet × α)) (k : BitSet) (d : α) : α :=
  (Option.map Prod.snd (m.find? fun p => p.1 == k)).getD d

/-- `candidates.iter().min_by(cmp_f64 of costs)` (lib.rs lines 136–145):
Rust's `min_by` returns the first element among equal minima, i.e. the fold
below, which replaces the accumulator only on strictly smaller cost. -/
def minByCost (cost : BitSet → Frac) : List BitSet → Option BitSet
  | [] => none
  | c :: rest =>
    some (rest.foldl
      (fun acc x => if cmpF64 (cost x) (cost acc) = Ordering.lt then x else acc) c)

/-- `BranchBound::total_bound` (lib.rs lines 220–227). -/
def BranchBound.total_bound (candidates : List BitSet) : Int := candidates.length

/-- `BranchBound::singleton_bound` (lib.rs lines 235–248); `ingredient_budget`
is a `usize` subtraction, modelled by truncated `Nat` subtraction. -/
def BranchBound.singleton_bound (minCover : BitSet → Int) (maxSize : Nat)
    (candidates : List BitSet) (partialIngredients : BitSet) : Int :=
  let nUnique := (candidates.filter fun c => minCover c == 1).length
  let ingredientBudget := maxSize - partialIngredients.len
  (candidates.length : Int) - (nUnique : Int) + ((min nUnique ingredientBudget : Nat) : Int)

/-- One step of the descending sort. -/
def insertDesc (x : Int) : List Int → List Int
  | [] => [x]
  | y :: ys => if y ≤ x then x :: y :: ys else y :: insertDesc x ys

/-- Models the result of `sort_unstable_by(|a, b| b.cmp(a))`: the same
multiset in descending order (instability is irrelevant for plain integers). -/
def sortDesc : List Int → List Int
  | [] => []
  | x :: xs => insertDesc x (sortDesc xs)

/-- The greedy loop of the concentration bound (lib.rs lines 274–280):
while the excess is positive, decrement the counter and subtract the next
increase; stop the moment the excess is `≤ 0` or the list is exhausted. -/
def greedyLoop : Int → Nat → List Int → Nat
  | _, upper, [] => upper
  | excess, upper, d :: ds =>
    if excess ≤ 0 then upper else greedyLoop (excess - d) (upper - 1) ds

/-- `BranchBound::concentration_bound` (lib.rs lines 256–282). -/
def BranchBound.concentration_bound (maxSize : Nat) (candidates : List BitSet)
    (partialIngredients : BitSet) : Int :=
  let candidateIngredients := unionAll candidates
  let excess : Int :=
    ((candidateIngredients.union partialIngredients).len : Int) - (maxSize : Int)
  let increases :=
    sortDesc (candidates.map fun c => ((c.difference partialIngredients).len : Int))
  (greedyLoop excess candidates.length increases : Int)

/-- `TotalBound::compute` (bounds.rs lines 28–36). -/
def TotalBound.compute (candidates : List BitSet) : Int := candidates.length

/-- `SingletonBound::compute` (bounds.rs lines 41–51): textually the same
computation as `BranchBound::singleton_bound`, reading its inputs from the
`BoundContext`. -/
def SingletonBound.compute (minCover : BitSet → Int) (maxSize : Nat)
    (candidates : List BitSet) (partialIngredients : BitSet) : Int :=
  let nUnique := (candidates.filter fun c => minCover c == 1).length
  let ingredientBudget := maxSize - partialIngredients.len
  (candidates.length : Int) - (nUnique : Int) + ((min nUnique ingredientBudget : Nat) : Int)

/-- `ConcentrationBound::compute` (bounds.rs lines 61–96): unlike the method
on `BranchBound`, it collects the ingredient increases into a 128-slot stack
array (`STACK_SIZE`), so only the first `min(|C|, 128)` candidates in
iteration order contribute an increase, while the counter still starts at the
full `|C|`. -/
def ConcentrationBound.compute (maxSize : Nat) (candidates : List BitSet)
    (partialIngredients : BitSet) : Int :=
  let candidateIngredients := unionAll candidates
  let excess : Int :=
    ((candidateIngredients.union partialIngredients).len : Int) - (maxSize : Int)
  let increases :=
    sortDesc ((candidates.take 128).map fun c => ((c.difference partialIngredients).len : Int))
  (greedyLoop excess candidates.length increases : Int)

/-- The spec's description of the concentration bound (§4.2 B3), written from
the spec's words, for the refinement comparison in C2: if `excess ≤ 0` return
`|C|`, otherwise run the greedy removal over the descending `d_r` of every
`r ∈ C`. -/
def specConcentrationBound (k : Nat) (C : List BitSet) (I : BitSet) : Int :=
  let excess : Int := (((unionAll C).union I).len : Int) - (k : Int)
  if excess ≤ 0 then (C.length : Int)
  else (greedyLoop excess C.length
    (sortDesc (C.map fun r => ((r.difference I).len : Int))) : Int)

/-- The spec's singleton-bound formula (§4.2 B2), written from the spec's
words, for the refinement comparison in C6: `|C| − u + min(u, k − |I(P)|)`
with exact integer arithmetic. -/
def specSingletonBound (k : Nat) (minCover : BitSet → Int) (C : List BitSet)
    (I : BitSet) : Int :=
  let u := (C.filter fun r => minCover r == 1).length
  (C.length : Int) - (u : Int) + min (u : Int) ((k : Int) - (I.len : Int))

/-- Lexicographic comparison of ascending element lists, written from the
spec's words (§4.1, total order), for the refinement comparison in C3. -/
def lexOrdering : List Nat → List Nat → Ordering
  | [], [] => Ordering.eq
  | [], _ :: _ => Ordering.lt
  | _ :: _, [] => Ordering.gt
  | x :: xs, y :: ys =>
    match compare x y with
    | Ordering.eq => lexOrdering xs ys
    | o => o

/-- The mutable scalar state of `BranchBound` (lib.rs lines 21–33): `calls`
(remaining budget), `max_size`, `highest_score`, `highest` (the incumbent
hash set, modelled as a duplicate-free list) and `counter`.  The immutable
preprocessed tables are passed to the recursion separately. -/
structure BB where
  calls : Int
  maxSize : Nat
  highestScore : Nat
  highest : List BitSet
  counter : Nat
deriving DecidableEq

/-- The `FxHashSet` union `&*partial | &covered_candidates` (lib.rs
line 179) on duplicate-free lists. -/
def listUnion (a b : List BitSet) : List BitSet := a ++ b.filter fun c => !(a.contains c)

/-- `keep_exploring` (lib.rs lines 199–218): `threshold` is the `usize`
subtraction `highest_score - partial.len()`, non-negative at every call site
because the incumbent update precedes it; continue only when every bound
strictly exceeds the threshold, in the order total, singleton,
concentration. -/
def keepExploring (minCover : BitSet → Int) (s : BB) (candidates partialSol : List BitSet)
    (partialIngredients : BitSet) : Bool :=
  let threshold : Int := ((s.highestScore - partialSol.length : Nat) : Int)
  decide (threshold < BranchBound.total_bound candidates) &&
    (decide (threshold <
        BranchBound.singleton_bound minCover s.maxSize candidates partialIngredients) &&
      decide (threshold <
        BranchBound.concentration_bound s.maxSize candidates partialIngredients))

/-- The pool passed to the left (include-pivot) recursive call (lib.rs lines
146–175): `candidates − covered` is the complement filter of the `covered`
filter; keep the cocktails whose extended footprint fits the budget and is
not a superset of a forbidden cocktail. -/
def leftPool (maxSize : Nat) (forbidden candidates : List BitSet) (nPI : BitSet) :
    List BitSet :=
  (candidates.filter fun c => !(c.isSubset nPI)).filter fun c =>
    decide ((c.union nPI).len ≤ maxSize) &&
      !(forbidden.any fun f => f.isSubset (c.union nPI))

/-- `covered_candidates` (lib.rs lines 147–151). -/
def coveredOf (candidates : List BitSet) (nPI : BitSet) : List BitSet :=
  candidates.filter fun c => c.isSubset nPI

/-- The pool passed to the right (exclude-pivot) recursive call (lib.rs lines
183–188): remove the pivot, then retain the cocktails that do not re-cover
it. -/
def rightPool (candidates : List BitSet) (best partialIngredients : BitSet) :
    List BitSet :=
  (candidates.erase best).filter fun c => !(best.isSubset (c.union partialIngredients))

/-- The state mutation at the head of a surviving `search` entry (lib.rs
lines 116–123): decrement `calls`, increment `counter`, and replace the
incumbent when the partial solution strictly beats it. -/
def entryState (s : BB) (partialSol : List BitSet) : BB :=
  let s1 : BB := { s with calls := s.calls - 1, counter := s.counter + 1 }
  if s1.highestScore < partialSol.length then
    { s1 with highest := partialSol, highestScore := partialSol.length }
  else s1

/-- The body of `BranchBound::search` after the first-call preprocessing
(lib.rs lines 112–197), threading the mutable state explicitly.  `fuel` is
only a termination device: every recursive call strictly shrinks the
candidate pool (`search_fuel_irrelevant` below), so any
`fuel > candidates.length` computes the same result. -/
def BranchBound.search (minCover : BitSet → Int) (cost : BitSet → Frac) :
    Nat → BB → List BitSet → List BitSet → List BitSet → BB
  | 0, s, _, _, _ => s
  | fuel + 1, s, candidates, partialSol, forbidden =>
    if s.calls ≤ 0 then s
    else
      let s2 := entryState s partialSol
      let partialIngredients := unionAll partialSol
      if keepExploring minCover s2 candidates partialSol partialIngredients then
        (minByCost cost candidates).elim s2 fun best =>
          let nPI := partialIngredients.union best
          let s3 := BranchBound.search minCover cost fuel s2
            (leftPool s2.maxSize forbidden candidates nPI)
            (listUnion partialSol (coveredOf candidates nPI)) forbidden
          BranchBound.search minCover cost fuel s3
            (rightPool candidates best partialIngredients) partialSol (best :: forbidden)
      else s2

/-- `BranchBound::new(max_calls, max_size)` followed by `search` on an empty
partial solution with `forbidden = None` (which the first-call preprocessing
immediately replaces by `Some` empty): build the preprocessed tables over the
initial candidates, then run the recursion with sufficient fuel. -/
def BranchBound.searchTop (maxCalls : Int) (maxSize : Nat)
    (candidates : List BitSet) : BB :=
  let minCoverTable := candidates.map fun c => (c, minCoverOf candidates c)
  let costTable := candidates.map fun c => (c, amortizedCost candidates c)
  BranchBound.search (fun c => lookupD minCoverTable c 0)
    (fun c => lookupD costTable c ⟨0, 1⟩)
    (candidates.length + 1)
    ⟨maxCalls, maxSize, 0, [], 0⟩ candidates [] []

/-- The candidate pools passed to recursive calls of `search`
(reflexive-transitive): one constructor per recursion site of
`BranchBound.search`, with the pool-shaping data (forbidden list, extended
footprint, pivot) universally chosen, so every pool an actual run passes to a
recursive call is reached by this relation. -/
inductive PoolReach (maxSize : Nat) : List BitSet → List BitSet → Prop
  | refl (c : List BitSet) : PoolReach maxSize c c
  | left (c forbidden : List BitSet) (nPI : BitSet) (c' : List BitSet) :
      PoolReach maxSize (leftPool maxSize forbidden c nPI) c' → PoolReach maxSize c c'
  | right (c : List BitSet) (best partialIngredients : BitSet) (c' : List BitSet) :
      PoolReach maxSize (rightPool c best partialIngredients) c' → PoolReach maxSize c c'

/-! ## Basic facts about the chunk model -/

theorem padGet_nil (i : Nat) : padGet [] i = 0 := by
  cases i <;> rfl

theorem padGet_cons_succ (x : Nat) (l : List Nat) (i : Nat) :
    padGet (x :: l) (i + 1) = padGet l i := rfl

theorem padGet_eq_zero_of_le (l : List Nat) (i : Nat) (h : l.length ≤ i) :
    padGet l i = 0 := by
  rw [padGet, List.getD_eq_getElem?_getD, List.getElem?_eq_none h]
  rfl

theorem dropTrailingZeros_cons (x : Nat) (t : List Nat) :
    dropTrailingZeros (x :: t) =
      if x = 0 ∧ dropTrailingZeros t = [] then [] else x :: dropTrailingZeros t := rfl

theorem dropTrailingZeros_eq_nil (l : List Nat) (h : dropTrailingZeros l = [])
    (c : Nat) (hc : c ∈ l) : c = 0 := by
  induction l with
  | nil => cases hc
  | cons x t ih =>
    rw [dropTrailingZeros_cons] at h
    by_cases hx : x = 0 ∧ dropTrailingZeros t = []
    · rcases List.mem_cons.mp hc with rfl | hc
      · exact hx.1
      · exact ih hx.2 hc
    · rw [if_neg hx] at h
      cases h

theorem padGet_dropTrailingZeros (l : List Nat) (i : Nat) :
    padGet (dropTrailingZeros l) i = padGet l i := by
  induction l generalizing i with
  | nil => rfl
  | cons x t ih =>
    rw [dropTrailingZeros_cons]
    by_cases hx : x = 0 ∧ dropTrailingZeros t = []
    · rw [if_pos hx, padGet_nil]
      cases i with
      | zero => simp [padGet, hx.1]
      | succ j =>
        rw [padGet_cons_succ]
        have hz : padGet t j = 0 := by
          rcases Nat.lt_or_ge j t.length with hj | hj
          · have hmem : t[j] ∈ t := List.getElem_mem hj
            have hpg : padGet t j = t[j] := by
              simp [padGet, List.getD_eq_getElem?_getD, List.getElem?_eq_getElem hj]
            rw [hpg]
            exact dropTrailingZeros_eq_nil t hx.2 _ hmem
          · exact padGet_eq_zero_of_le t j hj
        exact hz.symm
    · rw [if_neg hx]
      cases i with
      | zero => rfl
      | succ j =>
        rw [padGet_cons_succ, padGet_cons_succ]
        exact ih j

theorem trimmed_dropTrailingZeros (l : List Nat) :
    (dropTrailingZeros l).getLast? ≠ some 0 := by
  induction l with
  | nil => simp [dropTrailingZeros]
  | cons x t ih =>
    rw [dropTrailingZeros_cons]
    by_cases hx : x = 0 ∧ dropTrailingZeros t = []
    · rw [if_pos hx]; simp
    · rw [if_neg hx]
      rcases hd : dropTrailingZeros t with _ | ⟨y, ys⟩
      · have hx0 : ¬ x = 0 := fun h0 => hx ⟨h0, hd⟩
        simp [List.getLast?, hx0]
      · rw [List.getLast?_cons_cons, ← hd]
        exact ih

theorem mem_dropTrailingZeros (l : List Nat) (c : Nat)
    (h : c ∈ dropTrailingZeros l) : c ∈ l := by
  induction l with
  | nil => cases h
  | cons x t ih =>
    rw [dropTrailingZeros_cons] at h
    by_cases hx : x = 0 ∧ dropTrailingZeros t = []
    · rw [if_pos hx] at h; cases h
    · rw [if_neg hx] at h
      rcases List.mem_cons.mp h with rfl | h
      · exact List.mem_cons_self _ _
      · exact List.mem_cons_of_mem _ (ih h)

/-! ## Membership semantics of the bitset operations -/

theorem padGet_mem (l : List Nat) (i : Nat) (h : i < l.length) : padGet l i ∈ l := by
  have hg : padGet l i = l[i] := by
    simp [padGet, List.getD_eq_getElem?_getD, List.getElem?_eq_getElem h]
  rw [hg]
  exact List.getElem_mem h

theorem padGet_range_map (f : Nat → Nat) (n i : Nat) :
    padGet ((List.range n).map f) i = if i < n then f i else 0 := by
  by_cases h : i < n
  · rw [if_pos h, padGet, List.getD_eq_getElem?_getD,
      List.getElem?_eq_getElem (by simpa using h)]
    simp
  · rw [if_neg h]
    exact padGet_eq_zero_of_le _ _ (by simpa using Nat.le_of_not_lt h)

theorem BitSet.contains_eq_testBit (a : BitSet) (e : Nat) :
    a.contains e = (padGet a.chunks (e / 64)).testBit (e % 64) := by
  unfold BitSet.contains
  rw [Nat.shiftLeft_eq, one_mul, Nat.and_two_pow]
  cases hb : (padGet a.chunks (e / 64)).testBit (e % 64) <;> simp [hb]

theorem BitSet.contains_union (a b : BitSet) (e : Nat) :
    (a.union b).contains e = (a.contains e || b.contains e) := by
  rw [BitSet.contains_eq_testBit, BitSet.contains_eq_testBit, BitSet.contains_eq_testBit]
  simp only [BitSet.union]
  rw [padGet_dropTrailingZeros, padGet_range_map]
  by_cases h : e / 64 < max a.chunks.length b.chunks.length
  · rw [if_pos h, Nat.testBit_lor]
  · rw [if_neg h]
    rw [padGet_eq_zero_of_le a.chunks _ (le_trans (le_max_left _ _) (Nat.le_of_not_lt h)),
      padGet_eq_zero_of_le b.chunks _ (le_trans (le_max_right _ _) (Nat.le_of_not_lt h))]
    simp [Nat.zero_testBit]

theorem BitSet.contains_intersection (a b : BitSet) (e : Nat) :
    (a.intersection b).contains e = (a.contains e && b.contains e) := by
  rw [BitSet.contains_eq_testBit, BitSet.contains_eq_testBit, BitSet.contains_eq_testBit]
  simp only [BitSet.intersection]
  rw [padGet_dropTrailingZeros, padGet_range_map]
  by_cases h : e / 64 < min a.chunks.length b.chunks.length
  · rw [if_pos h, Nat.testBit_land]
  · rw [if_neg h]
    rcases min_le_iff.mp (Nat.le_of_not_lt h) with h' | h'
    · rw [padGet_eq_zero_of_le a.chunks _ h']
      simp [Nat.zero_testBit]
    · rw [padGet_eq_zero_of_le b.chunks _ h']
      simp [Nat.zero_testBit]

theorem testBit_mask64 (r : Nat) (h : r < 64) : mask64.testBit r = true := by
  rw [mask64, Nat.testBit_two_pow_sub_one]
  simpa using h

theorem emod64_lt (e : Nat) : e % 64 < 64 := Nat.mod_lt e (by norm_num)

theorem BitSet.contains_difference (a b : BitSet) (e : Nat) :
    (a.difference b).contains e = (a.contains e && !(b.contains e)) := by
  rw [BitSet.contains_eq_testBit, BitSet.contains_eq_testBit, BitSet.contains_eq_testBit]
  simp only [BitSet.difference]
  rw [padGet_dropTrailingZeros, padGet_range_map]
  by_cases h : e / 64 < a.chunks.length
  · rw [if_pos h, Nat.testBit_land, Nat.testBit_xor,
      testBit_mask64 _ (emod64_lt e), Bool.xor_true]
  · rw [if_neg h]
    rw [padGet_eq_zero_of_le a.chunks _ (Nat.le_of_not_lt h)]
    simp [Nat.zero_testBit]

theorem padGet_append_replicate_zero (l : List Nat) (k i : Nat) :
    padGet (l ++ List.replicate k 0) i = padGet l i := by
  by_cases h : i < l.length
  · rw [padGet, List.getD_eq_getElem?_getD,
      List.getElem?_append_left h, ← List.getD_eq_getElem?_getD, padGet]
  · rw [padGet_eq_zero_of_le l i (Nat.le_of_not_lt h), padGet,
      List.getD_eq_getElem?_getD, List.getElem?_append_right (Nat.le_of_not_lt h)]
    by_cases h2 : i - l.length < k
    · simp [List.getElem?_replicate, h2]
    · simp [List.getElem?_replicate, h2]

theorem padGet_set (l : List Nat) (j v i : Nat) :
    padGet (l.set j v) i = if j = i ∧ j < l.length then v else padGet l i := by
  rw [padGet, List.getD_eq_getElem?_getD, List.getElem?_set]
  by_cases hji : j = i
  · subst hji
    by_cases hl : j < l.length
    · simp [hl]
    · simp [hl, padGet_eq_zero_of_le l j (Nat.le_of_not_lt hl)]
  · simp [hji, padGet, List.getD_eq_getElem?_getD]

theorem div64_mod64_inj {e x : Nat} (hd : e / 64 = x / 64) (hm : e % 64 = x % 64) :
    e = x := by
  have he := Nat.div_add_mod e 64
  have hx := Nat.div_add_mod x 64
  omega

theorem BitSet.contains_insert (a : BitSet) (x e : Nat) :
    (a.insert x).contains e = (a.contains e || e == x) := by
  rw [BitSet.contains_eq_testBit, BitSet.contains_eq_testBit]
  simp only [BitSet.insert]
  have hlen : x / 64 <
      (if x / 64 < a.chunks.length then a.chunks
       else a.chunks ++ List.replicate (x / 64 + 1 - a.chunks.length) 0).length := by
    by_cases h : x / 64 < a.chunks.length
    · simp only [if_pos h]
      exact h
    · simp only [if_neg h, List.length_append, List.length_replicate]
      omega
  have hpg : ∀ i, padGet
      (if x / 64 < a.chunks.length then a.chunks
       else a.chunks ++ List.replicate (x / 64 + 1 - a.chunks.length) 0) i =
      padGet a.chunks i := by
    intro i
    by_cases h : x / 64 < a.chunks.length
    · rw [if_pos h]
    · rw [if_neg h, padGet_append_replicate_zero]
  rw [padGet_set, Nat.shiftLeft_eq, one_mul]
  by_cases hd : x / 64 = e / 64
  · rw [if_pos ⟨hd, hlen⟩, hpg, Nat.testBit_lor, hd, Nat.testBit_two_pow]
    by_cases hm : x % 64 = e % 64
    · have : e = x := div64_mod64_inj hd.symm hm.symm
      simp [this, hm]
    · have : e ≠ x := fun hex => hm (by rw [hex])
      simp [hm, this]
  · rw [if_neg (fun hc => hd hc.1), hpg]
    have : e ≠ x := fun hex => hd (by rw [hex])
    simp [this]

theorem BitSet.contains_new (e : Nat) : BitSet.new.contains e = false := by
  rw [BitSet.contains_eq_testBit]
  simp [BitSet.new, padGet_nil, Nat.zero_testBit]

theorem BitSet.contains_singleton (x e : Nat) :
    (BitSet.singleton x).contains e = (e == x) := by
  rw [BitSet.singleton, BitSet.contains_insert, BitSet.contains_new, Bool.false_or]

theorem BitSet.contains_bitsetFromIter (l : List Nat) (e : Nat) :
    (BitSet.bitsetFromIter l).contains e = (l.contains e) := by
  suffices h : ∀ (a : BitSet), (l.foldl BitSet.insert a).contains e =
      (a.contains e || l.contains e) by
    rw [BitSet.bitsetFromIter, h, BitSet.contains_new, Bool.false_or]
  induction l with
  | nil => simp
  | cons x t ih =>
    intro a
    simp only [List.foldl_cons, ih, BitSet.contains_insert, List.contains_cons]
    cases a.contains e <;> cases (e == x) <;> simp

/-! ## Subset, cardinality and extensionality -/

theorem BitSet.isSubset_iff (a b : BitSet) (hA : a.Bounded) :
    a.isSubset b = true ↔ ∀ e, a.contains e = true → b.contains e = true := by
  constructor
  · intro h e hae
    rw [BitSet.contains_eq_testBit] at hae ⊢
    by_cases hi : e / 64 < a.chunks.length
    · have hall := List.all_eq_true.mp h (e / 64) (List.mem_range.mpr hi)
      have hz : padGet a.chunks (e / 64) &&& (padGet b.chunks (e / 64) ^^^ mask64) = 0 :=
        by simpa using hall
      have hbit := congrArg (fun n => n.testBit (e % 64)) hz
      simp only [Nat.testBit_land, Nat.testBit_xor, Nat.zero_testBit,
        testBit_mask64 _ (emod64_lt e), Bool.xor_true] at hbit
      rw [hae] at hbit
      simpa using hbit
    · rw [padGet_eq_zero_of_le _ _ (Nat.le_of_not_lt hi), Nat.zero_testBit] at hae
      cases hae
  · intro h
    rw [BitSet.isSubset, List.all_eq_true]
    intro i hi
    rw [List.mem_range] at hi
    rw [beq_iff_eq]
    apply Nat.eq_of_testBit_eq
    intro r
    rw [Nat.zero_testBit, Nat.testBit_land, Nat.testBit_xor]
    by_cases hr : r < 64
    · rw [testBit_mask64 _ hr, Bool.xor_true]
      by_cases hb : (padGet a.chunks i).testBit r
      · have hdiv : (r + 64 * i) / 64 = i := by
          rw [Nat.add_mul_div_left _ _ (by norm_num : (0:Nat) < 64),
            Nat.div_eq_of_lt hr, Nat.zero_add]
        have hmod : (r + 64 * i) % 64 = r := by
          rw [Nat.add_mul_mod_self_left, Nat.mod_eq_of_lt hr]
        have hca : a.contains (r + 64 * i) = true := by
          rw [BitSet.contains_eq_testBit, hdiv, hmod]
          exact hb
        have hcb := h _ hca
        rw [BitSet.contains_eq_testBit, hdiv, hmod] at hcb
        rw [hb, hcb]
        simp
      · rw [Bool.eq_false_iff.mpr hb]
        simp
    · have hbd : padGet a.chunks i < 2 ^ r :=
        lt_of_lt_of_le (hA _ (padGet_mem _ _ hi))
          (Nat.pow_le_pow_right (by norm_num) (Nat.le_of_not_lt hr))
      rw [Nat.testBit_lt_two_pow hbd]
      simp

theorem sum_countOnes_eq (l : List Nat) (N : Nat) (hN : l.length ≤ N) :
    (l.map countOnes).sum =
      ((List.range (64 * N)).filter fun e => (padGet l (e / 64)).testBit (e % 64)).length := by
  induction l generalizing N with
  | nil =>
    simp only [List.map_nil, List.sum_nil]
    symm
    rw [List.length_eq_zero, List.filter_eq_nil_iff]
    intro e _
    simp [padGet_nil, Nat.zero_testBit]
  | cons c t ih =>
    cases N with
    | zero => simp at hN
    | succ M =>
      have hsplit : (64 : Nat) * (M + 1) = 64 + 64 * M := by ring
      rw [hsplit, List.range_add, List.filter_append, List.length_append]
      have h1 : ((List.range 64).filter
          fun e => (padGet (c :: t) (e / 64)).testBit (e % 64)).length = countOnes c := by
        rw [countOnes]
        have heq : ((List.range 64).filter
            fun e => (padGet (c :: t) (e / 64)).testBit (e % 64)) =
            ((List.range 64).filter fun i => c.testBit i) := by
          apply List.filter_congr
          intro e he
          rw [List.mem_range] at he
          rw [Nat.div_eq_of_lt he, Nat.mod_eq_of_lt he]
          rfl
        rw [heq]
      have h2 : (((List.range (64 * M)).map fun x => 64 + x).filter
          fun e => (padGet (c :: t) (e / 64)).testBit (e % 64)).length =
          ((List.range (64 * M)).filter
            fun e => (padGet t (e / 64)).testBit (e % 64)).length := by
        rw [← List.countP_eq_length_filter, ← List.countP_eq_length_filter, List.countP_map]
        apply List.countP_congr
        intro e _
        have hdiv : (64 + e) / 64 = e / 64 + 1 := by
          rw [Nat.add_comm 64 e]
          rw [show e + 64 = e + 64 * 1 by ring]
          rw [Nat.add_mul_div_left _ _ (by norm_num : (0:Nat) < 64)]
        have hmod : (64 + e) % 64 = e % 64 := by
          rw [Nat.add_comm 64 e]
          rw [show e + 64 = e + 64 * 1 by ring]
          rw [Nat.add_mul_mod_self_left]
        simp only [Function.comp_apply, hdiv, hmod, padGet_cons_succ]
      rw [h1, h2, List.map_cons, List.sum_cons, ← ih M (by simpa using hN)]

theorem BitSet.len_eq_count (a : BitSet) (N : Nat) (hN : a.chunks.length ≤ N) :
    a.len = ((List.range (64 * N)).filter fun e => a.contains e).length := by
  rw [BitSet.len, sum_countOnes_eq a.chunks N hN]
  congr 1
  apply List.filter_congr
  intro e _
  rw [BitSet.contains_eq_testBit]

theorem BitSet.len_mono (a b : BitSet)
    (h : ∀ e, a.contains e = true → b.contains e = true) : a.len ≤ b.len := by
  have hN : a.chunks.length ≤ max a.chunks.length b.chunks.length := le_max_left _ _
  have hM : b.chunks.length ≤ max a.chunks.length b.chunks.length := le_max_right _ _
  rw [BitSet.len_eq_count a _ hN, BitSet.len_eq_count b _ hM,
    ← List.countP_eq_length_filter, ← List.countP_eq_length_filter]
  exact List.countP_mono_left fun e _ he => h e he

theorem BitSet.len_congr (a b : BitSet)
    (h : ∀ e, a.contains e = b.contains e) : a.len = b.len :=
  Nat.le_antisymm
    (BitSet.len_mono a b fun e he => by rw [← h e]; exact he)
    (BitSet.len_mono b a fun e he => by rw [h e]; exact he)

theorem exists_testBit_of_trimmed (l : List Nat) (hB : ∀ c ∈ l, c < 2 ^ 64)
    (hT : l.getLast? ≠ some 0) (hne : l ≠ []) :
    ∃ e, (padGet l (e / 64)).testBit (e % 64) = true := by
  have hlast : l.getLast hne ∈ l := List.getLast_mem hne
  have hlz : l.getLast hne ≠ 0 := fun h0 => hT (by rw [List.getLast?_eq_getLast l hne, h0])
  rcases Nat.ne_zero_implies_bit_true hlz with ⟨i, hi⟩
  have hi64 : i < 64 := by
    by_contra hge
    have hlt : l.getLast hne < 2 ^ i :=
      lt_of_lt_of_le (hB _ hlast) (Nat.pow_le_pow_right (by norm_num) (Nat.le_of_not_lt hge))
    rw [Nat.testBit_lt_two_pow hlt] at hi
    cases hi
  refine ⟨i + 64 * (l.length - 1), ?_⟩
  have hlen : l.length ≠ 0 := fun h0 => hne (List.length_eq_zero.mp h0)
  have hdiv : (i + 64 * (l.length - 1)) / 64 = l.length - 1 := by
    rw [Nat.add_mul_div_left _ _ (by norm_num : (0:Nat) < 64),
      Nat.div_eq_of_lt hi64, Nat.zero_add]
  have hmod : (i + 64 * (l.length - 1)) % 64 = i := by
    rw [Nat.add_mul_mod_self_left, Nat.mod_eq_of_lt hi64]
  rw [hdiv, hmod]
  have hidx : l.length - 1 < l.length := by omega
  have hpl : padGet l (l.length - 1) = l.getLast hne := by
    rw [List.getLast_eq_getElem]
    simp [padGet, List.getD_eq_getElem?_getD, List.getElem?_eq_getElem hidx]
  rw [hpl]
  exact hi

theorem chunks_ext (a : List Nat) : ∀ (b : List Nat),
    (∀ c ∈ a, c < 2 ^ 64) → (∀ c ∈ b, c < 2 ^ 64) →
    a.getLast? ≠ some 0 → b.getLast? ≠ some 0 →
    (∀ e, (padGet a (e / 64)).testBit (e % 64) = (padGet b (e / 64)).testBit (e % 64)) →
    a = b := by
  induction a with
  | nil =>
    intro b _ hBB _ hBT h
    by_cases hbne : b = []
    · exact hbne.symm
    · exfalso
      rcases exists_testBit_of_trimmed b hBB hBT hbne with ⟨e, he⟩
      have hcontra := h e
      rw [padGet_nil, Nat.zero_testBit, he] at hcontra
      cases hcontra
  | cons x xs ih =>
    intro b hAB hBB hAT hBT h
    cases b with
    | nil =>
      exfalso
      have hane : x :: xs ≠ [] := List.cons_ne_nil x xs
      rcases exists_testBit_of_trimmed (x :: xs) hAB hAT hane with ⟨e, he⟩
      have hcontra := h e
      rw [padGet_nil, Nat.zero_testBit, he] at hcontra
      cases hcontra
    | cons y ys =>
      have hxy : x = y := by
        apply Nat.eq_of_testBit_eq
        intro r
        by_cases hr : r < 64
        · have := h r
          rw [Nat.div_eq_of_lt hr, Nat.mod_eq_of_lt hr] at this
          exact this
        · rw [Nat.testBit_lt_two_pow
              (lt_of_lt_of_le (hAB x (List.mem_cons_self x xs))
                (Nat.pow_le_pow_right (by norm_num) (Nat.le_of_not_lt hr))),
            Nat.testBit_lt_two_pow
              (lt_of_lt_of_le (hBB y (List.mem_cons_self y ys))
                (Nat.pow_le_pow_right (by norm_num) (Nat.le_of_not_lt hr)))]
      have htail : xs = ys := by
        apply ih ys
        · exact fun c hc => hAB c (List.mem_cons_of_mem x hc)
        · exact fun c hc => hBB c (List.mem_cons_of_mem y hc)
        · cases hxs : xs with
          | nil => simp
          | cons z zs =>
            rw [hxs] at hAT
            rw [List.getLast?_cons_cons] at hAT
            exact hAT
        · cases hys : ys with
          | nil => simp
          | cons z zs =>
            rw [hys] at hBT
            rw [List.getLast?_cons_cons] at hBT
            exact hBT
        · intro e
          have := h (e + 64)
          have hdiv : (e + 64) / 64 = e / 64 + 1 := by
            rw [show e + 64 = e + 64 * 1 by ring,
              Nat.add_mul_div_left _ _ (by norm_num : (0:Nat) < 64)]
          have hmod : (e + 64) % 64 = e % 64 := by
            rw [show e + 64 = e + 64 * 1 by ring, Nat.add_mul_mod_self_left]
          rw [hdiv, hmod, padGet_cons_succ, padGet_cons_succ] at this
          exact this
      rw [hxy, htail]

theorem BitSet.ext_of_wf (a b : BitSet) (ha : a.Wf) (hb : b.Wf)
    (h : ∀ e, a.contains e = b.contains e) : a = b := by
  have : a.chunks = b.chunks := by
    apply chunks_ext a.chunks b.chunks ha.1 hb.1 ha.2 hb.2
    intro e
    have := h e
    rw [BitSet.contains_eq_testBit, BitSet.contains_eq_testBit] at this
    exact this
  cases a
  cases b
  simpa using this

/-! ## Preservation of the representation invariant -/

theorem padGet_lt (l : List Nat) (hB : ∀ c ∈ l, c < 2 ^ 64) (i : Nat) :
    padGet l i < 2 ^ 64 := by
  by_cases h : i < l.length
  · exact hB _ (padGet_mem l i h)
  · rw [padGet_eq_zero_of_le l i (Nat.le_of_not_lt h)]
    exact Nat.two_pow_pos 64

theorem wf_mk_dropTrailingZeros (L : List Nat) (hB : ∀ c ∈ L, c < 2 ^ 64) :
    (BitSet.mk (dropTrailingZeros L)).Wf := by
  constructor
  · intro c hc
    exact hB c (mem_dropTrailingZeros L c hc)
  · exact trimmed_dropTrailingZeros L

theorem mask64_lt : mask64 < 2 ^ 64 := by
  rw [mask64]
  exact Nat.sub_lt (Nat.two_pow_pos 64) Nat.one_pos

theorem trimmed_set_of (l : List Nat) (ci v : Nat) (hci : ci < l.length) (hv : v ≠ 0)
    (hlast : ci = l.length - 1 ∨ l.getLast? ≠ some 0) :
    (l.set ci v).getLast? ≠ some 0 := by
  rw [List.getLast?_eq_getElem?, List.length_set,
    List.getElem?_eq_getElem (by rw [List.length_set]; omega), List.getElem_set]
  by_cases hc : ci = l.length - 1
  · rw [if_pos hc]
    simp [hv]
  · rw [if_neg hc]
    rcases hlast with h | h
    · exact absurd h hc
    · rw [List.getLast?_eq_getElem?, List.getElem?_eq_getElem (by omega)] at h
      simpa using h

theorem BitSet.wf_new : BitSet.new.Wf := by
  constructor
  · intro c hc
    cases hc
  · simp [BitSet.new, BitSet.Trimmed]

theorem BitSet.wf_insert (a : BitSet) (ha : a.Wf) (e : Nat) : (a.insert e).Wf := by
  obtain ⟨hB, hT⟩ := ha
  simp only [BitSet.insert]
  set l := if e / 64 < a.chunks.length then a.chunks
           else a.chunks ++ List.replicate (e / 64 + 1 - a.chunks.length) 0 with hl
  have hlB : ∀ c ∈ l, c < 2 ^ 64 := by
    rw [hl]
    by_cases h : e / 64 < a.chunks.length
    · rw [if_pos h]
      exact hB
    · rw [if_neg h]
      intro c hc
      rcases List.mem_append.mp hc with hc | hc
      · exact hB c hc
      · rw [List.eq_of_mem_replicate hc]
        exact Nat.two_pow_pos 64
  have hlen : e / 64 < l.length := by
    rw [hl]
    by_cases h : e / 64 < a.chunks.length
    · rw [if_pos h]
      exact h
    · rw [if_neg h, List.length_append, List.length_replicate]
      omega
  constructor
  · intro c hc
    rcases List.mem_or_eq_of_mem_set hc with hc | rfl
    · exact hlB c hc
    · have h2 : (1 <<< (e % 64)) < 2 ^ 64 := by
        rw [Nat.shiftLeft_eq, one_mul]
        exact Nat.pow_lt_pow_right (by norm_num) (emod64_lt e)
      exact Nat.bitwise_lt_two_pow (padGet_lt l hlB _) h2
  · apply trimmed_set_of _ _ _ hlen
    · have hbit : (padGet l (e / 64) ||| (1 <<< (e % 64))).testBit (e % 64) = true := by
        rw [Nat.testBit_lor, Nat.shiftLeft_eq, one_mul, Nat.testBit_two_pow]
        simp
      intro h0
      rw [h0, Nat.zero_testBit] at hbit
      cases hbit
    · by_cases h : e / 64 < a.chunks.length
      · right
        rw [hl, if_pos h]
        exact hT
      · left
        have : l.length = e / 64 + 1 := by
          rw [hl, if_neg h, List.length_append, List.length_replicate]
          omega
        omega

theorem BitSet.wf_singleton (e : Nat) : (BitSet.singleton e).Wf :=
  BitSet.wf_insert BitSet.new BitSet.wf_new e

theorem BitSet.wf_bitsetFromIter (l : List Nat) : (BitSet.bitsetFromIter l).Wf := by
  rw [BitSet.bitsetFromIter]
  suffices h : ∀ (a : BitSet), a.Wf → (l.foldl BitSet.insert a).Wf from h _ BitSet.wf_new
  induction l with
  | nil => exact fun a ha => ha
  | cons x t ih =>
    intro a ha
    rw [List.foldl_cons]
    exact ih _ (BitSet.wf_insert a ha x)

theorem BitSet.wf_union (a b : BitSet) (ha : a.Bounded) (hb : b.Bounded) :
    (a.union b).Wf := by
  apply wf_mk_dropTrailingZeros
  intro c hc
  rcases List.mem_map.mp hc with ⟨i, _, rfl⟩
  exact Nat.bitwise_lt_two_pow (padGet_lt _ ha i) (padGet_lt _ hb i)

theorem BitSet.wf_intersection (a b : BitSet) (ha : a.Bounded) (hb : b.Bounded) :
    (a.intersection b).Wf := by
  apply wf_mk_dropTrailingZeros
  intro c hc
  rcases List.mem_map.mp hc with ⟨i, _, rfl⟩
  exact Nat.bitwise_lt_two_pow (padGet_lt _ ha i) (padGet_lt _ hb i)

theorem BitSet.wf_difference (a b : BitSet) (ha : a.Bounded) (hb : b.Bounded) :
    (a.difference b).Wf := by
  apply wf_mk_dropTrailingZeros
  intro c hc
  rcases List.mem_map.mp hc with ⟨i, _, rfl⟩
  exact Nat.bitwise_lt_two_pow (padGet_lt _ ha i)
    (Nat.bitwise_lt_two_pow (padGet_lt _ hb i) mask64_lt)

theorem land_mask64_of_lt (x : Nat) (hx : x < 2 ^ 64) : x &&& mask64 = x := by
  apply Nat.eq_of_testBit_eq
  intro r
  rw [Nat.testBit_land]
  by_cases hr : r < 64
  · rw [testBit_mask64 _ hr, Bool.and_true]
  · rw [Nat.testBit_lt_two_pow
      (lt_of_lt_of_le hx (Nat.pow_le_pow_right (by norm_num) (Nat.le_of_not_lt hr)))]
    simp

/-! ## The in-place variants produce the same representation -/

theorem BitSet.unionAssign_eq (a b : BitSet) : a.unionAssign b = a.union b := by
  simp only [BitSet.unionAssign, BitSet.union, BitSet.mk.injEq]
  congr 1
  apply List.ext_getElem
  · simp only [List.length_mapIdx, List.length_map, List.length_range]
    by_cases h : b.chunks.length > a.chunks.length
    · rw [if_pos h, List.length_append, List.length_replicate]
      omega
    · rw [if_neg h]
      omega
  · intro n h1 h2
    rw [List.getElem_mapIdx]
    rw [List.getElem_map, List.getElem_range]
    have hn : n < max a.chunks.length b.chunks.length := by
      simpa using h2
    by_cases h : b.chunks.length > a.chunks.length
    · simp only [if_pos h] at h1 ⊢
      have hlen : n < (a.chunks ++ List.replicate (b.chunks.length - a.chunks.length) 0).length := by
        simp only [List.length_mapIdx] at h1
        exact h1
      have : (a.chunks ++ List.replicate (b.chunks.length - a.chunks.length) 0)[n] =
          padGet (a.chunks ++ List.replicate (b.chunks.length - a.chunks.length) 0) n := by
        simp [padGet, List.getD_eq_getElem?_getD, List.getElem?_eq_getElem hlen]
      rw [this, padGet_append_replicate_zero]
    · simp only [if_neg h] at h1 ⊢
      have hlen : n < a.chunks.length := by
        simpa using h1
      have : a.chunks[n] = padGet a.chunks n := by
        simp [padGet, List.getD_eq_getElem?_getD, List.getElem?_eq_getElem hlen]
      rw [this]

theorem BitSet.intersectionAssign_eq (a b : BitSet) :
    a.intersectionAssign b = a.intersection b := by
  simp only [BitSet.intersectionAssign, BitSet.intersection, BitSet.mk.injEq]
  congr 1
  apply List.ext_getElem
  · simp only [List.length_mapIdx, List.length_take, List.length_map, List.length_range]
    omega
  · intro n h1 h2
    rw [List.getElem_mapIdx, List.getElem_map, List.getElem_range]
    have hn : n < min a.chunks.length b.chunks.length := by
      simpa using h2
    have hna : n < a.chunks.length := lt_of_lt_of_le hn (min_le_left _ _)
    have htkl : n < (a.chunks.take (min a.chunks.length b.chunks.length)).length := by
      rw [List.length_take]
      exact lt_min hn hna
    have htk : (a.chunks.take (min a.chunks.length b.chunks.length))[n] = a.chunks[n] :=
      List.getElem_take a.chunks
    rw [htk]
    have : a.chunks[n] = padGet a.chunks n := by
      simp [padGet, List.getD_eq_getElem?_getD, List.getElem?_eq_getElem hna]
    rw [this]

theorem BitSet.differenceAssign_eq (a b : BitSet) (ha : a.Bounded) :
    a.differenceAssign b = a.difference b := by
  simp only [BitSet.differenceAssign, BitSet.difference, BitSet.mk.injEq]
  congr 1
  apply List.ext_getElem
  · simp only [List.length_mapIdx, List.length_map, List.length_range]
  · intro n h1 h2
    rw [List.getElem_mapIdx, List.getElem_map, List.getElem_range]
    have hna : n < a.chunks.length := by
      simpa using h1
    have hpg : a.chunks[n] = padGet a.chunks n := by
      simp [padGet, List.getD_eq_getElem?_getD, List.getElem?_eq_getElem hna]
    by_cases h : n < b.chunks.length
    · rw [if_pos h, hpg]
    · rw [if_neg h, hpg, padGet_eq_zero_of_le b.chunks n (Nat.le_of_not_lt h)]
      rw [Nat.zero_xor, land_mask64_of_lt _ (padGet_lt a.chunks ha n)]

/-! ## Reachable bitsets and extensional equality (C8) -/

theorem BitSet.wf_reachable (a : BitSet) (h : a.Reachable) : a.Wf := by
  induction h with
  | new => exact BitSet.wf_new
  | singleton e => exact BitSet.wf_singleton e
  | fromIter l => exact BitSet.wf_bitsetFromIter l
  | insert a e _ ih => exact BitSet.wf_insert a ih e
  | union a b _ _ iha ihb => exact BitSet.wf_union a b iha.1 ihb.1
  | intersection a b _ _ iha ihb => exact BitSet.wf_intersection a b iha.1 ihb.1
  | difference a b _ _ iha ihb => exact BitSet.wf_difference a b iha.1 ihb.1
  | unionAssign a b _ _ iha ihb =>
    rw [BitSet.unionAssign_eq]
    exact BitSet.wf_union a b iha.1 ihb.1
  | intersectionAssign a b _ _ iha ihb =>
    rw [BitSet.intersectionAssign_eq]
    exact BitSet.wf_intersection a b iha.1 ihb.1
  | differenceAssign a b _ _ iha ihb =>
    rw [BitSet.differenceAssign_eq a b iha.1]
    exact BitSet.wf_difference a b iha.1 ihb.1

/-! ## The bound functions: relating code and spec formulas (C2, C6) -/

theorem greedyLoop_nonpos (excess : Int) (upper : Nat) (ds : List Int)
    (h : excess ≤ 0) : greedyLoop excess upper ds = upper := by
  cases ds with
  | nil => rfl
  | cons d ds => simp [greedyLoop, h]

theorem concentration_bound_eq_spec (k : Nat) (C : List BitSet) (I : BitSet) :
    BranchBound.concentration_bound k C I = specConcentrationBound k C I := by
  simp only [BranchBound.concentration_bound, specConcentrationBound]
  by_cases h : (((unionAll C).union I).len : Int) - (k : Int) ≤ 0
  · rw [if_pos h, greedyLoop_nonpos _ _ _ h]
  · rw [if_neg h]

theorem compute_eq_method_of_small (k : Nat) (C : List BitSet) (I : BitSet)
    (h : C.length ≤ 128) :
    ConcentrationBound.compute k C I = BranchBound.concentration_bound k C I := by
  simp only [ConcentrationBound.compute, BranchBound.concentration_bound,
    List.take_of_length_le h]

theorem singleton_bound_eq_spec (mc : BitSet → Int) (k : Nat) (C : List BitSet)
    (I : BitSet) (h : I.len ≤ k) :
    BranchBound.singleton_bound mc k C I = specSingletonBound k mc C I := by
  simp only [BranchBound.singleton_bound, specSingletonBound]
  congr 1
  rw [Nat.cast_min]
  congr 1
  omega

theorem compute_singleton_eq_spec (mc : BitSet → Int) (k : Nat) (C : List BitSet)
    (I : BitSet) (h : I.len ≤ k) :
    SingletonBound.compute mc k C I = specSingletonBound k mc C I := by
  simp only [SingletonBound.compute, specSingletonBound]
  congr 1
  rw [Nat.cast_min]
  congr 1
  omega

/-! ## The total order on bitsets (C3) -/

theorem cmp_single_chunk (a b : BitSet) (ha : a.chunks.length ≤ 1)
    (hb : b.chunks.length ≤ 1) : BitSet.cmp a b = compare a.value b.value := by
  obtain ⟨la⟩ := a
  obtain ⟨lb⟩ := b
  simp only [BitSet.cmp, BitSet.value] at ha hb ⊢
  rcases la with _ | ⟨x, la'⟩
  · rcases lb with _ | ⟨y, lb'⟩
    · simp only [cmpChunks, cmpZerosLeft, chunksValue]
      decide
    · have hl : lb' = [] := by
        simp only [List.length_cons] at hb
        exact List.length_eq_zero.mp (by omega)
      subst hl
      simp only [cmpChunks, cmpZerosLeft, chunksValue]
      cases h : compare (0 : Nat) y <;> simp [h]
  · have hl : la' = [] := by
      simp only [List.length_cons] at ha
      exact List.length_eq_zero.mp (by omega)
    subst hl
    rcases lb with _ | ⟨y, lb'⟩
    · simp only [cmpChunks, cmpZerosLeft, chunksValue]
      cases h : compare x (0 : Nat) <;> simp [h]
    · have hl : lb' = [] := by
        simp only [List.length_cons] at hb
        exact List.length_eq_zero.mp (by omega)
      subst hl
      simp only [cmpChunks, cmpZerosLeft, chunksValue]
      cases h : compare x y <;> simp [h]

/-! ## Search engine lemmas -/

theorem contains_unionAll_iff (l : List BitSet) (e : Nat) :
    (unionAll l).contains e = true ↔ ∃ c ∈ l, c.contains e = true := by
  suffices h : ∀ acc : BitSet,
      ((l.foldl (fun a c => a.union c) acc).contains e = true ↔
        (acc.contains e = true ∨ ∃ c ∈ l, c.contains e = true)) by
    rw [unionAll, h BitSet.new, BitSet.contains_new]
    simp
  induction l with
  | nil =>
    intro acc
    simp
  | cons x t ih =>
    intro acc
    rw [List.foldl_cons, ih (acc.union x), BitSet.contains_union]
    simp only [Bool.or_eq_true, List.mem_cons]
    constructor
    · rintro ((h | h) | ⟨c, hc, h⟩)
      · exact Or.inl h
      · exact Or.inr ⟨x, Or.inl rfl, h⟩
      · exact Or.inr ⟨c, Or.inr hc, h⟩
    · rintro (h | ⟨c, rfl | hc, h⟩)
      · exact Or.inl (Or.inl h)
      · exact Or.inl (Or.inr h)
      · exact Or.inr ⟨c, hc, h⟩

theorem mem_listUnion {c : BitSet} {a b : List BitSet} :
    c ∈ listUnion a b ↔ c ∈ a ∨ c ∈ b := by
  rw [listUnion, List.mem_append, List.mem_filter]
  constructor
  · rintro (h | ⟨h, _⟩)
    · exact Or.inl h
    · exact Or.inr h
  · rintro (h | h)
    · exact Or.inl h
    · by_cases hc : c ∈ a
      · exact Or.inl hc
      · refine Or.inr ⟨h, ?_⟩
        simp only [List.contains, Bool.not_eq_true']
        rw [Bool.eq_false_iff]
        intro helem
        exact hc (List.elem_iff.mp helem)

theorem nodup_listUnion (a b : List BitSet) (ha : a.Nodup) (hb : b.Nodup) :
    (listUnion a b).Nodup := by
  apply List.Nodup.append ha (List.Nodup.filter _ hb)
  intro x hx hxf
  rw [List.mem_filter] at hxf
  have h2 := hxf.2
  simp only [List.contains, Bool.not_eq_true'] at h2
  rw [Bool.eq_false_iff] at h2
  exact h2 (List.elem_iff.mpr hx)

theorem foldl_min_mem (cost : BitSet → Frac) (S : List BitSet) :
    ∀ (l : List BitSet) (acc : BitSet), acc ∈ S → (∀ x ∈ l, x ∈ S) →
      l.foldl (fun acc x => if cmpF64 (cost x) (cost acc) = Ordering.lt then x else acc)
        acc ∈ S := by
  intro l
  induction l with
  | nil =>
    intro acc ha _
    exact ha
  | cons x t ih =>
    intro acc ha hl
    rw [List.foldl_cons]
    apply ih
    · by_cases hc : cmpF64 (cost x) (cost acc) = Ordering.lt
      · rw [if_pos hc]
        exact hl x (List.mem_cons_self x t)
      · rw [if_neg hc]
        exact ha
    · intro y hy
      exact hl y (List.mem_cons_of_mem x hy)

theorem minByCost_mem (cost : BitSet → Frac) (l : List BitSet) (best : BitSet)
    (h : minByCost cost l = some best) : best ∈ l := by
  cases l with
  | nil => cases h
  | cons c rest =>
    simp only [minByCost, Option.some.injEq] at h
    rw [← h]
    exact foldl_min_mem cost (c :: rest) rest c (List.mem_cons_self c rest)
      fun x hx => List.mem_cons_of_mem c hx

theorem length_filter_lt_of_exists {p : BitSet → Bool} {l : List BitSet} (x : BitSet)
    (hx : x ∈ l) (hpx : p x = false) : (l.filter p).length < l.length := by
  induction l with
  | nil => cases hx
  | cons y t ih =>
    rw [List.filter_cons]
    rcases List.mem_cons.mp hx with rfl | hx
    · rw [if_neg (by rw [hpx]; exact Bool.false_ne_true)]
      exact Nat.lt_succ_of_le (List.length_filter_le p t)
    · by_cases hy : p y = true
      · rw [if_pos hy, List.length_cons, List.length_cons]
        exact Nat.succ_lt_succ (ih hx)
      · rw [if_neg hy]
        exact Nat.lt_succ_of_lt (ih hx)

theorem isSubset_union_right (best pI : BitSet) (hB : best.Bounded) :
    best.isSubset (pI.union best) = true := by
  rw [BitSet.isSubset_iff _ _ hB]
  intro e he
  rw [BitSet.contains_union, he, Bool.or_true]

theorem mem_leftPool {maxSize : Nat} {forbidden candidates : List BitSet} {nPI : BitSet}
    {c : BitSet} (h : c ∈ leftPool maxSize forbidden candidates nPI) : c ∈ candidates :=
  (List.mem_filter.mp (List.mem_filter.mp h).1).1

theorem mem_rightPool {candidates : List BitSet} {best pI : BitSet} {c : BitSet}
    (h : c ∈ rightPool candidates best pI) : c ∈ candidates :=
  List.mem_of_mem_erase (List.mem_filter.mp h).1

theorem leftPool_length_lt (maxSize : Nat) (forbidden candidates : List BitSet)
    (pI best : BitSet) (hbest : best ∈ candidates) (hB : best.Bounded) :
    (leftPool maxSize forbidden candidates (pI.union best)).length < candidates.length := by
  have h1 : ((candidates.filter fun c => !(c.isSubset (pI.union best))).length <
      candidates.length) := by
    apply length_filter_lt_of_exists best hbest
    rw [isSubset_union_right best pI hB]
    rfl
  exact lt_of_le_of_lt (List.length_filter_le _ _) h1

theorem rightPool_length_lt (candidates : List BitSet) (best pI : BitSet)
    (hbest : best ∈ candidates) :
    (rightPool candidates best pI).length < candidates.length := by
  apply lt_of_le_of_lt (List.length_filter_le _ _)
  rw [List.length_erase_of_mem hbest]
  have := List.length_pos_of_mem hbest
  omega

theorem search_zero (mc : BitSet → Int) (cost : BitSet → Frac) (s : BB)
    (cands p fb : List BitSet) : BranchBound.search mc cost 0 s cands p fb = s := rfl

theorem search_succ (mc : BitSet → Int) (cost : BitSet → Frac) (fuel : Nat) (s : BB)
    (cands p fb : List BitSet) :
    BranchBound.search mc cost (fuel + 1) s cands p fb =
      if s.calls ≤ 0 then s
      else if keepExploring mc (entryState s p) cands p (unionAll p) then
        (minByCost cost cands).elim (entryState s p) fun best =>
          BranchBound.search mc cost fuel
            (BranchBound.search mc cost fuel (entryState s p)
              (leftPool (entryState s p).maxSize fb cands ((unionAll p).union best))
              (listUnion p (coveredOf cands ((unionAll p).union best))) fb)
            (rightPool cands best (unionAll p)) p (best :: fb)
      else entryState s p := rfl

theorem search_fuel_irrelevant (mc : BitSet → Int) (cost : BitSet → Frac) :
    ∀ (f1 f2 : Nat) (s : BB) (cands p fb : List BitSet),
      (∀ c ∈ cands, c.Bounded) → cands.length < f1 → cands.length < f2 →
      BranchBound.search mc cost f1 s cands p fb =
        BranchBound.search mc cost f2 s cands p fb := by
  intro f1
  induction f1 with
  | zero =>
    intro f2 s cands p fb hB h1 h2
    omega
  | succ a ih =>
    intro f2 s cands p fb hB h1 h2
    cases f2 with
    | zero => omega
    | succ b =>
      rw [search_succ, search_succ]
      by_cases hcalls : s.calls ≤ 0
      · rw [if_pos hcalls, if_pos hcalls]
      · rw [if_neg hcalls, if_neg hcalls]
        by_cases hke : keepExploring mc (entryState s p) cands p (unionAll p) = true
        · rw [if_pos hke, if_pos hke]
          cases hmin : minByCost cost cands with
          | none => rw [Option.elim_none, Option.elim_none]
          | some best =>
            rw [Option.elim_some, Option.elim_some]
            have hbest := minByCost_mem cost cands best hmin
            have hlp := leftPool_length_lt (entryState s p).maxSize fb cands
              (unionAll p) best hbest (hB best hbest)
            have hrp := rightPool_length_lt cands best (unionAll p) hbest
            have hLB : ∀ c ∈ leftPool (entryState s p).maxSize fb cands
                ((unionAll p).union best), c.Bounded :=
              fun c hc => hB c (mem_leftPool hc)
            have hRB : ∀ c ∈ rightPool cands best (unionAll p), c.Bounded :=
              fun c hc => hB c (mem_rightPool hc)
            have hL := ih b (entryState s p)
              (leftPool (entryState s p).maxSize fb cands ((unionAll p).union best))
              (listUnion p (coveredOf cands ((unionAll p).union best))) fb
              hLB (by omega) (by omega)
            rw [hL]
            exact ih b _ (rightPool cands best (unionAll p)) p (best :: fb)
              hRB (by omega) (by omega)
        · rw [if_neg hke, if_neg hke]

theorem entryState_facts (s : BB) (p : List BitSet) (h : ¬ s.calls ≤ 0) :
    (entryState s p).maxSize = s.maxSize ∧
    s.highestScore ≤ (entryState s p).highestScore ∧
    ((entryState s p).counter : Int) + (entryState s p).calls =
      (s.counter : Int) + s.calls ∧
    0 ≤ (entryState s p).calls := by
  have hc : (entryState s p).calls = s.calls - 1 := by
    rw [entryState]
    split <;> rfl
  have hco : (entryState s p).counter = s.counter + 1 := by
    rw [entryState]
    split <;> rfl
  have hm : (entryState s p).maxSize = s.maxSize := by
    rw [entryState]
    split <;> rfl
  have hh : s.highestScore ≤ (entryState s p).highestScore := by
    rw [entryState]
    split
    · next hlt => exact le_of_lt hlt
    · exact le_refl _
  refine ⟨hm, hh, ?_, ?_⟩
  · rw [hc, hco]
    push_cast
    omega
  · rw [hc]
    omega

theorem entryState_highest (s : BB) (p : List BitSet) :
    ((entryState s p).highest = p ∧ (entryState s p).highestScore = p.length) ∨
    ((entryState s p).highest = s.highest ∧
      (entryState s p).highestScore = s.highestScore) := by
  rw [entryState]
  split
  · exact Or.inl ⟨rfl, rfl⟩
  · exact Or.inr ⟨rfl, rfl⟩

theorem search_basic_inv (mc : BitSet → Int) (cost : BitSet → Frac) :
    ∀ (fuel : Nat) (s : BB) (cands p fb : List BitSet),
      (BranchBound.search mc cost fuel s cands p fb).maxSize = s.maxSize ∧
      s.highestScore ≤ (BranchBound.search mc cost fuel s cands p fb).highestScore ∧
      ((BranchBound.search mc cost fuel s cands p fb).counter : Int) +
          (BranchBound.search mc cost fuel s cands p fb).calls =
        (s.counter : Int) + s.calls ∧
      (0 ≤ s.calls → 0 ≤ (BranchBound.search mc cost fuel s cands p fb).calls) := by
  intro fuel
  induction fuel with
  | zero =>
    intro s cands p fb
    rw [search_zero]
    exact ⟨rfl, le_refl _, rfl, fun h => h⟩
  | succ a ih =>
    intro s cands p fb
    rw [search_succ]
    by_cases hcalls : s.calls ≤ 0
    · rw [if_pos hcalls]
      exact ⟨rfl, le_refl _, rfl, fun h => h⟩
    · rw [if_neg hcalls]
      obtain ⟨hm0, hh0, hc0, hp0⟩ := entryState_facts s p hcalls
      by_cases hke : keepExploring mc (entryState s p) cands p (unionAll p) = true
      · rw [if_pos hke]
        cases hmin : minByCost cost cands with
        | none =>
          rw [Option.elim_none]
          exact ⟨hm0, hh0, by omega, fun _ => hp0⟩
        | some best =>
          rw [Option.elim_some]
          obtain ⟨hm1, hh1, hc1, hp1⟩ := ih (entryState s p)
            (leftPool (entryState s p).maxSize fb cands ((unionAll p).union best))
            (listUnion p (coveredOf cands ((unionAll p).union best))) fb
          obtain ⟨hm2, hh2, hc2, hp2⟩ := ih
            (BranchBound.search mc cost a (entryState s p)
              (leftPool (entryState s p).maxSize fb cands ((unionAll p).union best))
              (listUnion p (coveredOf cands ((unionAll p).union best))) fb)
            (rightPool cands best (unionAll p)) p (best :: fb)
          refine ⟨by rw [hm2, hm1, hm0], le_trans hh0 (le_trans hh1 hh2), by omega,
            fun _ => hp2 (hp1 hp0)⟩
      · rw [if_neg hke]
        exact ⟨hm0, hh0, by omega, fun _ => hp0⟩

theorem entryState_maxSize (s : BB) (p : List BitSet) :
    (entryState s p).maxSize = s.maxSize := by
  rw [entryState]
  split <;> rfl

theorem search_highest_inv (mc : BitSet → Int) (cost : BitSet → Frac) :
    ∀ (fuel : Nat) (s : BB) (cands p fb : List BitSet),
      cands.Nodup → p.Nodup → s.highest.Nodup → s.highest.length = s.highestScore →
      ((BranchBound.search mc cost fuel s cands p fb).highest.Nodup ∧
        (BranchBound.search mc cost fuel s cands p fb).highest.length =
          (BranchBound.search mc cost fuel s cands p fb).highestScore) := by
  intro fuel
  induction fuel with
  | zero =>
    intro s cands p fb _ _ h3 h4
    rw [search_zero]
    exact ⟨h3, h4⟩
  | succ a ih =>
    intro s cands p fb h1 h2 h3 h4
    rw [search_succ]
    have hes : (entryState s p).highest.Nodup ∧
        (entryState s p).highest.length = (entryState s p).highestScore := by
      rcases entryState_highest s p with ⟨hh, hs⟩ | ⟨hh, hs⟩
      · rw [hh, hs]
        exact ⟨h2, rfl⟩
      · rw [hh, hs]
        exact ⟨h3, h4⟩
    by_cases hcalls : s.calls ≤ 0
    · rw [if_pos hcalls]
      exact ⟨h3, h4⟩
    · rw [if_neg hcalls]
      by_cases hke : keepExploring mc (entryState s p) cands p (unionAll p) = true
      · rw [if_pos hke]
        cases hmin : minByCost cost cands with
        | none =>
          rw [Option.elim_none]
          exact hes
        | some best =>
          rw [Option.elim_some]
          have hlp : (leftPool (entryState s p).maxSize fb cands
              ((unionAll p).union best)).Nodup := (h1.filter _).filter _
          have hlu : (listUnion p (coveredOf cands ((unionAll p).union best))).Nodup :=
            nodup_listUnion _ _ h2 (h1.filter _)
          have hrp : (rightPool cands best (unionAll p)).Nodup :=
            (List.Nodup.erase best h1).filter _
          obtain ⟨h5, h6⟩ := ih (entryState s p)
            (leftPool (entryState s p).maxSize fb cands ((unionAll p).union best))
            (listUnion p (coveredOf cands ((unionAll p).union best))) fb
            hlp hlu hes.1 hes.2
          exact ih _ (rightPool cands best (unionAll p)) p (best :: fb) hrp h2 h5 h6
      · rw [if_neg hke]
        exact hes

theorem search_feasible_inv (mc : BitSet → Int) (cost : BitSet → Frac) (mS : Nat) :
    ∀ (fuel : Nat) (s : BB) (cands p fb : List BitSet),
      s.maxSize = mS →
      (∀ c ∈ cands, c.Bounded) →
      (unionAll p).len ≤ mS →
      (∀ c ∈ cands, (c.union (unionAll p)).len ≤ mS) →
      (unionAll s.highest).len ≤ mS →
      (unionAll (BranchBound.search mc cost fuel s cands p fb).highest).len ≤ mS := by
  intro fuel
  induction fuel with
  | zero =>
    intro s cands p fb _ _ _ _ h5
    rw [search_zero]
    exact h5
  | succ a ih =>
    intro s cands p fb hms hB hp hc hh
    rw [search_succ]
    have hesh : (unionAll (entryState s p).highest).len ≤ mS := by
      rcases entryState_highest s p with ⟨hhh, _⟩ | ⟨hhh, _⟩
      · rw [hhh]
        exact hp
      · rw [hhh]
        exact hh
    by_cases hcalls : s.calls ≤ 0
    · rw [if_pos hcalls]
      exact hh
    · rw [if_neg hcalls]
      by_cases hke : keepExploring mc (entryState s p) cands p (unionAll p) = true
      · rw [if_pos hke]
        cases hmin : minByCost cost cands with
        | none =>
          rw [Option.elim_none]
          exact hesh
        | some best =>
          rw [Option.elim_some]
          have hbest := minByCost_mem cost cands best hmin
          have hnPIlen : ((unionAll p).union best).len ≤ mS := by
            have h1 : (best.union (unionAll p)).len ≤ mS := hc best hbest
            have h2 : ((unionAll p).union best).len = (best.union (unionAll p)).len :=
              BitSet.len_congr _ _ fun e => by
                rw [BitSet.contains_union, BitSet.contains_union, Bool.or_comm]
            omega
          have hsubP' : ∀ e,
              (unionAll (listUnion p
                (coveredOf cands ((unionAll p).union best)))).contains e = true →
              ((unionAll p).union best).contains e = true := by
            intro e he
            rcases (contains_unionAll_iff _ e).mp he with ⟨c, hcmem, hce⟩
            rcases mem_listUnion.mp hcmem with hcp | hcc
            · rw [BitSet.contains_union]
              have hpe : (unionAll p).contains e = true :=
                (contains_unionAll_iff _ e).mpr ⟨c, hcp, hce⟩
              rw [hpe]
              rfl
            · have hcands : c ∈ cands := (List.mem_filter.mp hcc).1
              have hsub : c.isSubset ((unionAll p).union best) = true :=
                (List.mem_filter.mp hcc).2
              exact (BitSet.isSubset_iff c _ (hB c hcands)).mp hsub e hce
          have hp' : (unionAll (listUnion p
              (coveredOf cands ((unionAll p).union best)))).len ≤ mS :=
            le_trans (BitSet.len_mono _ _ hsubP') hnPIlen
          have hcL : ∀ c ∈ leftPool (entryState s p).maxSize fb cands
              ((unionAll p).union best),
              (c.union (unionAll (listUnion p
                (coveredOf cands ((unionAll p).union best))))).len ≤ mS := by
            intro c hcmem
            have h2 := (List.mem_filter.mp hcmem).2
            have hfit : (c.union ((unionAll p).union best)).len ≤
                (entryState s p).maxSize :=
              of_decide_eq_true (Bool.and_elim_left h2)
            rw [entryState_maxSize, hms] at hfit
            apply le_trans (BitSet.len_mono _ _ ?_) hfit
            intro e he
            rw [BitSet.contains_union] at he ⊢
            rcases (Bool.or_eq_true _ _).mp he with h | h
            · rw [h]
              rfl
            · rw [hsubP' e h, Bool.or_true]
          have hstep := ih (entryState s p)
            (leftPool (entryState s p).maxSize fb cands ((unionAll p).union best))
            (listUnion p (coveredOf cands ((unionAll p).union best))) fb
            (by rw [entryState_maxSize]; exact hms)
            (fun c hcm => hB c (mem_leftPool hcm)) hp' hcL hesh
          have hm3 : (BranchBound.search mc cost a (entryState s p)
              (leftPool (entryState s p).maxSize fb cands ((unionAll p).union best))
              (listUnion p (coveredOf cands ((unionAll p).union best))) fb).maxSize =
              mS := by
            rw [(search_basic_inv mc cost a (entryState s p) _ _ fb).1,
              entryState_maxSize, hms]
          exact ih _ (rightPool cands best (unionAll p)) p (best :: fb) hm3
            (fun c hcm => hB c (mem_rightPool hcm)) hp
            (fun c hcm => hc c (mem_rightPool hcm)) hstep
      · rw [if_neg hke]
        exact hesh

theorem poolReach_subset (mS : Nat) (c₀ c : List BitSet) (h : PoolReach mS c₀ c) :
    ∀ x ∈ c, x ∈ c₀ := by
  induction h with
  | refl c => exact fun x hx => hx
  | left c fb nPI c' _ ih => exact fun x hx => mem_leftPool (ih x hx)
  | right c best pI c' _ ih => exact fun x hx => mem_rightPool (ih x hx)

/-! ## The claims -/

set_option maxRecDepth 100000 in
/-- C1 counterexample.  The claim asserts feasibility for every valid input
(non-empty recipes, positive `k`, positive `maxCalls`).  On recipes
`{0,1,2}` and `{0,1,3,4}` with `k = 2` and ten calls of budget, the pivot
`{0,1,2}` (strictly cheapest amortized cost 2 vs 3) is committed without any
budget check, and the returned incumbent has a footprint of 3 > k = 2
ingredients. -/
theorem C1_counterexample :
    (unionAll (BranchBound.searchTop 10 2
      [BitSet.bitsetFromIter [0, 1, 2], BitSet.bitsetFromIter [0, 1, 3, 4]]).highest).len = 3 ∧
    ¬ ((unionAll (BranchBound.searchTop 10 2
      [BitSet.bitsetFromIter [0, 1, 2], BitSet.bitsetFromIter [0, 1, 3, 4]]).highest).len ≤ 2) := by
  constructor <;> decide

/-- C1 (amended): if in addition every input recipe fits the ingredient
budget (`|r| ≤ k` — the condition the engine's own `extended_ingredients`
filter maintains at every level below the root), the recipe collection
returned by `BranchBound::search` from an empty partial solution has an
ingredient footprint of at most `k` elements. -/
theorem C1_feasibility_amended (maxCalls : Int) (k : Nat) (cands : List BitSet)
    (_hmc : 0 < maxCalls) (_hk : 0 < k)
    (hB : ∀ r ∈ cands, r.Bounded)
    (_hne : ∀ r ∈ cands, 0 < r.len)
    (hsize : ∀ r ∈ cands, r.len ≤ k) :
    (unionAll (BranchBound.searchTop maxCalls k cands).highest).len ≤ k := by
  simp only [BranchBound.searchTop]
  apply search_feasible_inv _ _ k _ _ _ _ _ rfl hB
  · exact Nat.zero_le k
  · intro c hc
    have heq : (c.union (unionAll [])).len = c.len := by
      apply BitSet.len_congr
      intro e
      rw [BitSet.contains_union]
      have hnil : (unionAll ([] : List BitSet)).contains e = false := BitSet.contains_new e
      rw [hnil, Bool.or_false]
    rw [heq]
    exact hsize c hc
  · exact Nat.zero_le k

/-- C1 witness: the amended theorem applied to the single recipe `{0,1}`
with `k = 2`, `maxCalls = 10`. -/
theorem C1_feasibility_amended_witness :
    ((0 : Int) < 10 ∧ 0 < 2 ∧ (∀ r ∈ [BitSet.bitsetFromIter [0, 1]], r.len ≤ 2)) ∧
    (unionAll (BranchBound.searchTop 10 2 [BitSet.bitsetFromIter [0, 1]]).highest).len ≤ 2 :=
  ⟨⟨by decide, by decide, by decide⟩,
    C1_feasibility_amended 10 2 [BitSet.bitsetFromIter [0, 1]] (by decide) (by decide)
      (by decide) (by decide) (by decide)⟩

set_option maxRecDepth 100000 in
/-- C2 counterexample.  The claim asserts that `ConcentrationBound::compute`
performs the described computation with `d_r` computed for **all** recipes of
`C`.  On 130 singleton recipes with `k = 1` and an empty footprint, the
described procedure (and the method) return 1, but the trait implementation
caps the collected increases at 128 and returns 2. -/
theorem C2_counterexample :
    ConcentrationBound.compute 1 ((List.range 130).map BitSet.singleton) BitSet.new = 2 ∧
    specConcentrationBound 1 ((List.range 130).map BitSet.singleton) BitSet.new = 1 ∧
    BranchBound.concentration_bound 1 ((List.range 130).map BitSet.singleton) BitSet.new = 1 := by
  refine ⟨by decide, by decide, by decide⟩

/-- C2 (amended): `BranchBound::concentration_bound` computes exactly the
described bound (return `|C|` when the excess is `≤ 0`, otherwise the greedy
counter over the descending `d_r` of every recipe); `ConcentrationBound::compute`
does so only when `|C| ≤ 128` — in general it collects `d_r` only for the
first `min(|C|, 128)` candidates in iteration order. -/
theorem C2_concentration_amended :
    (∀ (k : Nat) (C : List BitSet) (I : BitSet),
      BranchBound.concentration_bound k C I = specConcentrationBound k C I) ∧
    (∀ (k : Nat) (C : List BitSet) (I : BitSet), C.length ≤ 128 →
      ConcentrationBound.compute k C I = specConcentrationBound k C I) := by
  constructor
  · exact concentration_bound_eq_spec
  · intro k C I h
    rw [compute_eq_method_of_small k C I h]
    exact concentration_bound_eq_spec k C I

/-- C2 witness: both halves applied at a concrete state (two recipes, tight
budget). -/
theorem C2_concentration_amended_witness :
    (BranchBound.concentration_bound 1 [BitSet.singleton 0, BitSet.bitsetFromIter [1, 2]]
        (BitSet.singleton 3) =
      specConcentrationBound 1 [BitSet.singleton 0, BitSet.bitsetFromIter [1, 2]]
        (BitSet.singleton 3)) ∧
    ([BitSet.singleton 0, BitSet.bitsetFromIter [1, 2]].length ≤ 128 ∧
      ConcentrationBound.compute 1 [BitSet.singleton 0, BitSet.bitsetFromIter [1, 2]]
          (BitSet.singleton 3) =
        specConcentrationBound 1 [BitSet.singleton 0, BitSet.bitsetFromIter [1, 2]]
          (BitSet.singleton 3)) :=
  ⟨C2_concentration_amended.1 1 _ _,
    by decide,
    C2_concentration_amended.2 1 _ _ (by decide)⟩

/-- C3 counterexample.  The claim asserts `Ord::cmp` equals both the
lexicographic comparison of ascending element lists and the numeric
comparison of packed representations.  Both readings fail: for `{1}` vs
`{0,1}` the code answers `Less` (2 < 3 numerically) while ascending-element
lexicographic comparison answers `Greater`; for `{0}` vs `{64}` the code
compares the low chunk first and answers `Greater`, while the packed values
satisfy `1 < 2^64`. -/
theorem C3_counterexample :
    (BitSet.cmp (BitSet.bitsetFromIter [1]) (BitSet.bitsetFromIter [0, 1]) = Ordering.lt ∧
      lexOrdering (BitSet.bitsetFromIter [1]).elements
        (BitSet.bitsetFromIter [0, 1]).elements = Ordering.gt) ∧
    (BitSet.cmp (BitSet.singleton 0) (BitSet.singleton 64) = Ordering.gt ∧
      compare (BitSet.singleton 0).value (BitSet.singleton 64).value = Ordering.lt) := by
  refine ⟨⟨by decide, by decide⟩, by decide, by decide⟩

/-- C3 (amended): `Ord::cmp` compares the zero-padded chunk sequences
position by position starting from the **low** chunk; it agrees with the
unsigned numeric comparison of the packed representation exactly on
single-chunk sets (all elements below 64), which covers every set the
cocktail data produces. -/
theorem C3_cmp_amended (a b : BitSet) (ha : a.chunks.length ≤ 1)
    (hb : b.chunks.length ≤ 1) : BitSet.cmp a b = compare a.value b.value :=
  cmp_single_chunk a b ha hb

/-- C3 witness: the amended theorem at `{0,1}` vs `{2}`. -/
theorem C3_cmp_amended_witness :
    ((BitSet.bitsetFromIter [0, 1]).chunks.length ≤ 1 ∧
      (BitSet.singleton 2).chunks.length ≤ 1) ∧
    BitSet.cmp (BitSet.bitsetFromIter [0, 1]) (BitSet.singleton 2) =
      compare (BitSet.bitsetFromIter [0, 1]).value (BitSet.singleton 2).value :=
  ⟨⟨by decide, by decide⟩,
    C3_cmp_amended (BitSet.bitsetFromIter [0, 1]) (BitSet.singleton 2)
      (by decide) (by decide)⟩

/-- C4: budget safety.  For every input and positive `maxCalls`, the final
state of one invocation satisfies `calls ≥ 0` and
`counter = maxCalls − calls` (the invariant preserved by every recursive
entry, see `search_basic_inv`), hence the reported `counter` never exceeds
`maxCalls`. -/
theorem C4_budget_safety (maxCalls : Int) (maxSize : Nat) (cands : List BitSet)
    (h : 0 < maxCalls) :
    0 ≤ (BranchBound.searchTop maxCalls maxSize cands).calls ∧
    ((BranchBound.searchTop maxCalls maxSize cands).counter : Int) =
      maxCalls - (BranchBound.searchTop maxCalls maxSize cands).calls ∧
    ((BranchBound.searchTop maxCalls maxSize cands).counter : Int) ≤ maxCalls := by
  simp only [BranchBound.searchTop]
  obtain ⟨-, -, hc, hp⟩ := search_basic_inv
    (fun c => lookupD (cands.map fun c => (c, minCoverOf cands c)) c 0)
    (fun c => lookupD (cands.map fun c => (c, amortizedCost cands c)) c ⟨0, 1⟩)
    (cands.length + 1) ⟨maxCalls, maxSize, 0, [], 0⟩ cands [] []
  simp only [show ((⟨maxCalls, maxSize, 0, [], 0⟩ : BB)).counter = 0 from rfl,
    show ((⟨maxCalls, maxSize, 0, [], 0⟩ : BB)).calls = maxCalls from rfl] at hc hp
  have h0 : (0 : Int) ≤ maxCalls := le_of_lt h
  refine ⟨hp h0, ?_, ?_⟩ <;> omega

/-- C4 witness: the theorem at a concrete run. -/
theorem C4_budget_safety_witness :
    ((0 : Int) < 5) ∧
    (0 ≤ (BranchBound.searchTop 5 2 [BitSet.singleton 0]).calls ∧
      ((BranchBound.searchTop 5 2 [BitSet.singleton 0]).counter : Int) =
        5 - (BranchBound.searchTop 5 2 [BitSet.singleton 0]).calls ∧
      ((BranchBound.searchTop 5 2 [BitSet.singleton 0]).counter : Int) ≤ 5) :=
  ⟨by decide, C4_budget_safety 5 2 [BitSet.singleton 0] (by decide)⟩

/-- C5: during one invocation (any entry state `s`, any pools) the incumbent
score never decreases, and `highest_score` always equals the size of the
stored incumbent set. -/
theorem C5_monotone_incumbent (mc : BitSet → Int) (cost : BitSet → Frac)
    (fuel : Nat) (s : BB) (cands p fb : List BitSet)
    (h1 : cands.Nodup) (h2 : p.Nodup) (h3 : s.highest.Nodup)
    (h4 : s.highest.length = s.highestScore) :
    s.highestScore ≤ (BranchBound.search mc cost fuel s cands p fb).highestScore ∧
    (BranchBound.search mc cost fuel s cands p fb).highest.length =
      (BranchBound.search mc cost fuel s cands p fb).highestScore ∧
    (BranchBound.search mc cost fuel s cands p fb).highest.Nodup := by
  obtain ⟨-, hmono, -, -⟩ := search_basic_inv mc cost fuel s cands p fb
  obtain ⟨hnd, hlen⟩ := search_highest_inv mc cost fuel s cands p fb h1 h2 h3 h4
  exact ⟨hmono, hlen, hnd⟩

/-- C5 witness: the theorem at a concrete entry state. -/
theorem C5_monotone_incumbent_witness :
    (([BitSet.singleton 0] : List BitSet).Nodup ∧ ([] : List BitSet).Nodup ∧
      ([] : List BitSet).Nodup ∧ ([] : List BitSet).length = 0) ∧
    (0 ≤ (BranchBound.search (fun _ => 1) (fun _ => ⟨1, 1⟩) 2
        ⟨5, 2, 0, [], 0⟩ [BitSet.singleton 0] [] []).highestScore ∧
      (BranchBound.search (fun _ => 1) (fun _ => ⟨1, 1⟩) 2
          ⟨5, 2, 0, [], 0⟩ [BitSet.singleton 0] [] []).highest.length =
        (BranchBound.search (fun _ => 1) (fun _ => ⟨1, 1⟩) 2
          ⟨5, 2, 0, [], 0⟩ [BitSet.singleton 0] [] []).highestScore ∧
      (BranchBound.search (fun _ => 1) (fun _ => ⟨1, 1⟩) 2
        ⟨5, 2, 0, [], 0⟩ [BitSet.singleton 0] [] []).highest.Nodup) :=
  ⟨⟨by decide, by decide, by decide, by decide⟩,
    C5_monotone_incumbent (fun _ => 1) (fun _ => ⟨1, 1⟩) 2 ⟨5, 2, 0, [], 0⟩
      [BitSet.singleton 0] [] [] (by decide) (by decide) (by decide) (by decide)⟩

/-- C6: whenever the partial footprint fits the budget (`|I(P)| ≤ k`), both
`BranchBound::singleton_bound` and `SingletonBound::compute` return exactly
`|C| − u + min(u, k − |I(P)|)` where `u` counts the candidates whose
precomputed `minCover` equals 1. -/
theorem C6_singleton_bound (mc : BitSet → Int) (k : Nat) (C : List BitSet)
    (I : BitSet) (h : I.len ≤ k) :
    BranchBound.singleton_bound mc k C I = specSingletonBound k mc C I ∧
    SingletonBound.compute mc k C I = specSingletonBound k mc C I :=
  ⟨singleton_bound_eq_spec mc k C I h, compute_singleton_eq_spec mc k C I h⟩

/-- C6 witness: the theorem at a concrete state. -/
theorem C6_singleton_bound_witness :
    ((BitSet.singleton 5).len ≤ 3) ∧
    (BranchBound.singleton_bound (fun _ => 1) 3
        [BitSet.singleton 0, BitSet.bitsetFromIter [1, 2]] (BitSet.singleton 5) =
      specSingletonBound 3 (fun _ => 1)
        [BitSet.singleton 0, BitSet.bitsetFromIter [1, 2]] (BitSet.singleton 5) ∧
      SingletonBound.compute (fun _ => 1) 3
          [BitSet.singleton 0, BitSet.bitsetFromIter [1, 2]] (BitSet.singleton 5) =
        specSingletonBound 3 (fun _ => 1)
          [BitSet.singleton 0, BitSet.bitsetFromIter [1, 2]] (BitSet.singleton 5)) :=
  ⟨by decide, C6_singleton_bound (fun _ => 1) 3
    [BitSet.singleton 0, BitSet.bitsetFromIter [1, 2]] (BitSet.singleton 5) (by decide)⟩

/-- C7: on an empty candidate pool with an empty partial solution, one
invocation terminates with an empty incumbent of score 0; pruning always
fires on the empty pool — the total bound 0 never strictly exceeds the
(non-negative) threshold — and pivot selection on an empty pool yields
nothing, so it is never attempted. -/
theorem C7_empty_input (maxCalls : Int) (mS : Nat) (h : 0 < maxCalls) :
    (BranchBound.searchTop maxCalls mS []).highest = [] ∧
    (BranchBound.searchTop maxCalls mS []).highestScore = 0 ∧
    (BranchBound.searchTop maxCalls mS []).counter = 1 ∧
    (∀ (mc : BitSet → Int) (s : BB) (pI : BitSet), keepExploring mc s [] [] pI = false) ∧
    (∀ cost : BitSet → Frac, minByCost cost [] = none) := by
  have hke : ∀ (mc : BitSet → Int) (s : BB) (pI : BitSet),
      keepExploring mc s [] [] pI = false := by
    intro mc s pI
    simp only [keepExploring]
    have hth : ¬ (((s.highestScore - List.length ([] : List BitSet) : Nat) : Int) <
        BranchBound.total_bound []) := by
      rw [BranchBound.total_bound]
      simp only [List.length_nil, Nat.cast_zero]
      exact not_lt.mpr (Int.natCast_nonneg _)
    rw [decide_eq_false hth, Bool.false_and]
  have hrun : BranchBound.searchTop maxCalls mS [] =
      entryState ⟨maxCalls, mS, 0, [], 0⟩ [] := by
    simp only [BranchBound.searchTop, List.map_nil]
    rw [search_succ, if_neg (by omega : ¬ maxCalls ≤ 0), hke, if_neg Bool.false_ne_true]
  refine ⟨?_, ?_, ?_, hke, fun cost => rfl⟩ <;> rw [hrun] <;> rfl

/-- C7 witness: the theorem at `maxCalls = 5`, `k = 3`. -/
theorem C7_empty_input_witness :
    ((0 : Int) < 5) ∧
    ((BranchBound.searchTop 5 3 []).highest = [] ∧
      (BranchBound.searchTop 5 3 []).highestScore = 0 ∧
      (BranchBound.searchTop 5 3 []).counter = 1 ∧
      (∀ (mc : BitSet → Int) (s : BB) (pI : BitSet),
        keepExploring mc s [] [] pI = false) ∧
      (∀ cost : BitSet → Frac, minByCost cost [] = none)) :=
  ⟨by decide, C7_empty_input 5 3 (by decide)⟩

/-- C8: for bitsets built by any sequence of the public operations, `Eq`
coincides with element-wise equality — every operation trims trailing zero
storage, so the representation is canonical (`BitSet.wf_reachable` and
`BitSet.ext_of_wf`) — and the derived hash, being a function of the
representation, is consistent with equality. -/
theorem C8_eq_iff_same_elements (a b : BitSet)
    (ha : a.Reachable) (hb : b.Reachable) :
    ((a = b) ↔ ∀ e, a.contains e = b.contains e) ∧
    (∀ hash : BitSet → Nat, a = b → hash a = hash b) :=
  ⟨⟨fun h e => by rw [h], fun h =>
    BitSet.ext_of_wf a b (BitSet.wf_reachable a ha) (BitSet.wf_reachable b hb) h⟩,
    fun _ h => by rw [h]⟩

/-- C8 witness: `{0, 65}` built two different ways. -/
theorem C8_eq_iff_same_elements_witness :
    ((BitSet.bitsetFromIter [0, 65] = (BitSet.singleton 65).insert 0) ↔
      ∀ e, (BitSet.bitsetFromIter [0, 65]).contains e =
        ((BitSet.singleton 65).insert 0).contains e) ∧
    (∀ hash : BitSet → Nat,
      BitSet.bitsetFromIter [0, 65] = (BitSet.singleton 65).insert 0 →
      hash (BitSet.bitsetFromIter [0, 65]) = hash ((BitSet.singleton 65).insert 0)) :=
  C8_eq_iff_same_elements _ _ (BitSet.Reachable.fromIter [0, 65])
    (BitSet.Reachable.insert _ 0 (BitSet.Reachable.singleton 65))

set_option maxRecDepth 1000000 in
/-- C9: the singleton-bound scenario.  On recipes
`{0,1},{0,2},{0,3},{0,4},{5,6}` with `k = 4` and the default call budget,
the search returns an incumbent of exactly 3 recipes, all coverable by a
4-ingredient footprint (here ⊆ {0,1,2,3}). -/
theorem C9_singleton_bound_scenario :
    (BranchBound.searchTop 8000000 4
      [BitSet.bitsetFromIter [0, 1], BitSet.bitsetFromIter [0, 2],
        BitSet.bitsetFromIter [0, 3], BitSet.bitsetFromIter [0, 4],
        BitSet.bitsetFromIter [5, 6]]).highest.length = 3 ∧
    (unionAll (BranchBound.searchTop 8000000 4
      [BitSet.bitsetFromIter [0, 1], BitSet.bitsetFromIter [0, 2],
        BitSet.bitsetFromIter [0, 3], BitSet.bitsetFromIter [0, 4],
        BitSet.bitsetFromIter [5, 6]]).highest).len ≤ 4 ∧
    (∀ r ∈ (BranchBound.searchTop 8000000 4
      [BitSet.bitsetFromIter [0, 1], BitSet.bitsetFromIter [0, 2],
        BitSet.bitsetFromIter [0, 3], BitSet.bitsetFromIter [0, 4],
        BitSet.bitsetFromIter [5, 6]]).highest,
      r.isSubset (BitSet.bitsetFromIter [0, 1, 2, 3]) = true) := by
  refine ⟨by decide, by decide, by decide⟩

/-- C10: every candidate pool passed to a recursive call of `search` is a
subset of the invocation's initial pool (left pools are filters of the
current pool, right pools are erase-plus-retain), so the
`min_amortized_cost` and `min_cover` lookups performed during pivot
selection and in the singleton bound always find their key. -/
theorem C10_pools_subset (mS : Nat) (c₀ c : List BitSet) (x : BitSet)
    (h : PoolReach mS c₀ c) (hx : x ∈ c) :
    x ∈ c₀ ∧
    ((c₀.map fun r => (r, minCoverOf c₀ r)).find? fun pr => pr.1 == x).isSome = true ∧
    ((c₀.map fun r => (r, amortizedCost c₀ r)).find? fun pr => pr.1 == x).isSome = true := by
  have hx0 : x ∈ c₀ := poolReach_subset mS c₀ c h x hx
  refine ⟨hx0, ?_, ?_⟩
  · rw [List.find?_isSome]
    exact ⟨(x, minCoverOf c₀ x), List.mem_map.mpr ⟨x, hx0, rfl⟩, by simp⟩
  · rw [List.find?_isSome]
    exact ⟨(x, amortizedCost c₀ x), List.mem_map.mpr ⟨x, hx0, rfl⟩, by simp⟩

/-- C10 witness: a right-branch pool of a concrete two-recipe instance. -/
theorem C10_pools_subset_witness :
    (BitSet.singleton 1 ∈ rightPool [BitSet.singleton 0, BitSet.singleton 1]
      (BitSet.singleton 0) BitSet.new) ∧
    (BitSet.singleton 1 ∈ [BitSet.singleton 0, BitSet.singleton 1] ∧
      (([BitSet.singleton 0, BitSet.singleton 1].map fun r =>
          (r, minCoverOf [BitSet.singleton 0, BitSet.singleton 1] r)).find?
        fun pr => pr.1 == BitSet.singleton 1).isSome = true ∧
      (([BitSet.singleton 0, BitSet.singleton 1].map fun r =>
          (r, amortizedCost [BitSet.singleton 0, BitSet.singleton 1] r)).find?
        fun pr => pr.1 == BitSet.singleton 1).isSome = true) :=
  ⟨by decide, C10_pools_subset 4 [BitSet.singleton 0, BitSet.singleton 1]
    (rightPool [BitSet.singleton 0, BitSet.singleton 1] (BitSet.singleton 0) BitSet.new)
    (BitSet.singleton 1)
    (PoolReach.right _ (BitSet.singleton 0) BitSet.new _ (PoolReach.refl _))
    (by decide)⟩
